import Mathlib

/-!
Verification of the piece-geometry and connectivity engine of the
`game-puzzle` repository.

The relevant source files are shallowly embedded here:

* `src/app/puzzle-triangle/page.tsx` — triangular neighbor-snap variant
  (dnd-kit based): `createTrianglePuzzle`, `setupNeighbors`,
  `getPieceDimensions`, `getConnectedGroup`, `checkAndSnapToNeighbors`,
  `handleDragStart` / `handleDragEnd` / `handleReturnToPool`, solved check.
* `src/app/puzzle-random/page.tsx` — 4-fan triangular variant:
  `generateTrianglePattern`, `setupNeighbors` (tolerance parameter,
  sorted + rounded edge keys), `getGridForPieceCount`, solved check.
* `src/unnamed/part_002` — mouse-event triangular variant:
  `handleMouseMove`, `handleMouseUp`, solved check.
* `src/components/puzzleGame-berhasil.tsx` — exact-slot jigsaw variant:
  `handleDragEnd`, solved check.

Conventions of the embedding:

* Coordinates are exact rationals `ℚ` (the source uses JS doubles; all
  properties proved here are about the idealised real-valued algorithm).
* The source's `distance` computes the square root of `dx² + dy²` and only
  ever compares distances with each other or with a threshold.  We embed the
  squared distance `distSq` and compare `distSq < t·t ∧ 0 < t`, which over
  the reals is equivalent to `sqrt(distSq) < t` (the square root is strictly
  monotone on nonnegatives and nonnegative); theorem statements phrase
  distances with `Real.sqrt` so that claims read as in the specification.
* JS `Map` objects become association lists (`objGet` / `objSet` / `objDel`
  mirror `get` / `set` / `delete`: `set` overwrites in place or appends).
* JS plain objects used as string-keyed dictionaries become association
  lists via the same operations; object string keys built from coordinates
  are modelled by the tuple of coordinates (two such keys are equal iff the
  built strings are equal).
* JS `Set` objects become duplicate-free lists built with `addUniq`
  (insertion order preserved, as JS sets iterate in insertion order).
* The unbounded `while (queue.length > 0)` BFS loops become fuelled
  recursion; the fuel passed at every call site is proved sufficient.

Batteries' rational arithmetic is made kernel-reducible below so that
concrete states of the embedded engine can be evaluated by `decide`.
-/

attribute [local semireducible] Rat.add Rat.mul Rat.sub Rat.inv Rat.ofScientific

set_option maxHeartbeats 1000000

set_option maxRecDepth 100000

/-- A 2-D point, as in `type Point = { x: number; y: number }`. -/
structure Pt where
  x : ℚ
  y : ℚ
deriving DecidableEq, Repr

/-- Pointwise addition of points (used for translations). -/
def Pt.add (p q : Pt) : Pt := ⟨p.x + q.x, p.y + q.y⟩

/-- Pointwise difference of points. -/
def Pt.sub (p q : Pt) : Pt := ⟨p.x - q.x, p.y - q.y⟩

/-- Squared Euclidean distance; the source's `distance` is its square root. -/
def distSq (p q : Pt) : ℚ := (p.x - q.x) ^ 2 + (p.y - q.y) ^ 2

/-- Embeds the source comparison `distance(p, q) < t`: over the reals,
`sqrt(distSq p q) < t` holds iff `0 < t` and `distSq p q < t²`. -/
def distLtB (p q : Pt) (t : ℚ) : Bool := decide (0 < t) && decide (distSq p q < t * t)

/-- JS `Math.round` on a (nonnegative, in our use) rational: `⌊q + 1/2⌋`. -/
def jsRound (q : ℚ) : ℤ := Int.floor (q + 1/2)

section AssocMaps

variable {K V : Type} [DecidableEq K]

/-- JS object / `Map` assignment: overwrite the existing binding in place,
or append a new one (JS objects and Maps preserve insertion order). -/
def objSet (m : List (K × V)) (k : K) (v : V) : List (K × V) :=
  if m.any (fun e => e.1 = k) then
    m.map (fun e => if e.1 = k then (k, v) else e)
  else
    m ++ [(k, v)]

/-- JS object / `Map` lookup. -/
def objGet (m : List (K × V)) (k : K) : Option V :=
  (m.find? (fun e => e.1 = k)).map (fun e => e.2)

/-- JS `Map.delete`. -/
def objDel (m : List (K × V)) (k : K) : List (K × V) :=
  m.filter (fun e => ¬ e.1 = k)

end AssocMaps

/-- JS `Set.add`: append iff not already present (insertion order kept). -/
def addUniq (l : List ℕ) (x : ℕ) : List ℕ :=
  if x ∈ l then l else l ++ [x]

/-- Spread a whole list into a JS `Set` (left fold of `addUniq`). -/
def addAllUniq (l : List ℕ) (xs : List ℕ) : List ℕ :=
  xs.foldl addUniq l

/-! ## Placement engine state

`type PlacedPiece = { id, position, isLocked, connectedGroup }`; the
`placedPieces : Map<string, PlacedPiece>` becomes an association list from
piece ids (modelled as `ℕ`) to `Placed` records. -/

/-- Runtime record of a placed piece (`PlacedPiece` minus the redundant
`id` field, which always equals the map key). -/
structure Placed where
  pos : Pt
  locked : Bool
  group : List ℕ
deriving DecidableEq, Repr

/-- The `placedPieces` map. -/
abbrev PMap := List (ℕ × Placed)

/-- The `connectedGroup` set of a placed piece, `[]` if the piece is not in
the map (the source's `placed?.connectedGroup` optional chain). -/
def groupOf (placed : PMap) (i : ℕ) : List ℕ :=
  match objGet placed i with
  | some e => e.group
  | none => []

/-- One hop of the `connectedGroup` graph. -/
def stepRel (placed : PMap) (a b : ℕ) : Prop := b ∈ groupOf placed a

/-- All ids mentioned in any `connectedGroup` of the map. -/
def allGroupIds (placed : PMap) : List ℕ :=
  placed.foldr (fun e acc => e.2.group ++ acc) []

/-- Fuelled embedding of the BFS worklist loop used by `getConnectedGroup`,
the solved check, and (with a nonempty `blocked` list) the
`expandedNeighbors` walk of `handleDragEnd`:

`while (queue.length > 0) { const current = queue.shift(); if
(visited.has(current) || blocked.includes(current)) continue;
visited.add(current); group(current).forEach(id => { if (!visited.has(id))
queue.push(id) }) }`.

The fuel argument only bounds the number of loop iterations; every call
site passes `bfsFuel`, which is proved below to be enough for the loop to
run to completion. -/
def bfsAux (placed : PMap) (blocked : List ℕ) : ℕ → List ℕ → List ℕ → List ℕ
  | 0, _, vis => vis
  | _ + 1, [], vis => vis
  | f + 1, c :: q, vis =>
    if c ∈ vis ∨ c ∈ blocked then
      bfsAux placed blocked f q vis
    else
      bfsAux placed blocked f
        (q ++ (groupOf placed c).filter (fun x => decide (¬ x ∈ vis ++ [c])))
        (vis ++ [c])

/-- Enough fuel for `bfsAux` to drain its queue when started on `[start]`. -/
def bfsFuel (placed : PMap) (start : ℕ) : ℕ :=
  ((allGroupIds placed).length + 1) * ((start :: allGroupIds placed).dedup.length) + 2

/-- `getConnectedGroup(pieceId)`: BFS over `connectedGroup` links starting
from the one-element queue `[pieceId]` with empty visited set. -/
def getConnectedGroup (placed : PMap) (start : ℕ) : List ℕ :=
  bfsAux placed [] (bfsFuel placed start) [start] []

/-! ## A common shape of the engine's update loops

Each `forEach`/`foldl` update loop of the engine walks a list of ids and,
for each id, either skips it or `Map.set`s it to a value computed from the
*pre-loop* state only.  `writeEach` captures that shape; each handler below
is defined through it with its own per-id write function. -/

/-- Walk `l`; for each id `i`, skip when `f i = none`, else `set i (f i)`. -/
def writeEach (m0 : PMap) (l : List ℕ) (f : ℕ → Option Placed) : PMap :=
  l.foldl (fun m i =>
    match f i with
    | none => m
    | some v => objSet m i v) m0

/-! ## Static piece data and snap evaluation

`type Piece = { id, …, correctPosition, polygon, …, neighbors }`; the engine
only reads `correctPosition` and `Object.values(piece.neighbors)` (entries
are `string | null`), so the engine-level piece record keeps just those. -/

/-- Engine view of a static piece. -/
structure PieceS where
  id : ℕ
  correct : Pt
  nbrs : List (Option ℕ)
deriving DecidableEq, Repr

/-- The id list of a piece set. -/
def idsOf (pieces : List PieceS) : List ℕ := pieces.map (fun p => p.id)

/-- `pieces.find(p => p.id === i)`. -/
def findPiece (pieces : List PieceS) (i : ℕ) : Option PieceS :=
  pieces.find? (fun p => p.id = i)

/-- `neighbor.currentPosition + (piece.correctPosition − neighbor.correctPosition)`,
the expected position of `pc` next to the placed neighbor record `npl` of
piece `np`. -/
def expectedPos (npl : Placed) (pc np : PieceS) : Pt :=
  ⟨npl.pos.x + (pc.correct.x - np.correct.x),
   npl.pos.y + (pc.correct.y - np.correct.y)⟩

/-- One snap candidate; the source stores the distance, we store its square
(the comparisons and the sort order are unchanged, as the square root is
strictly monotone on nonnegative numbers). -/
structure Cand where
  nId : ℕ
  snapPos : Pt
  dsq : ℚ
deriving DecidableEq, Repr

/-- The `snapCandidates` array built by `checkAndSnapToNeighbors`:
for each non-null neighbor id that is currently placed and resolvable in
`pieces`, a candidate is pushed iff the distance from `pos` to the expected
position is strictly below the threshold. -/
def snapCandidates (pieces : List PieceS) (placed : PMap) (thr : ℚ)
    (pc : PieceS) (pos : Pt) : List Cand :=
  pc.nbrs.foldl (fun acc nOpt =>
    match nOpt with
    | none => acc
    | some nId =>
      match objGet placed nId with
      | none => acc
      | some npl =>
        match findPiece pieces nId with
        | none => acc
        | some np =>
          if distLtB pos (expectedPos npl pc np) thr then
            acc ++ [⟨nId, expectedPos npl pc np, distSq pos (expectedPos npl pc np)⟩]
          else acc) []

instance : IsTotal Cand (fun a b => a.dsq ≤ b.dsq) := ⟨fun a b => le_total a.dsq b.dsq⟩

instance : IsTrans Cand (fun a b => a.dsq ≤ b.dsq) := ⟨fun _ _ _ hab hbc => le_trans hab hbc⟩

/-- `snapCandidates.sort((a, b) => a.dist - b.dist)`: an ascending sort by
distance (equivalently by squared distance). -/
def sortCands (l : List Cand) : List Cand :=
  List.insertionSort (fun a b => a.dsq ≤ b.dsq) l

/-- Result record of `checkAndSnapToNeighbors`. -/
structure SnapResult where
  shouldSnap : Bool
  snapPosition : Pt
  neighbors : List ℕ
deriving DecidableEq, Repr

/-- `checkAndSnapToNeighbors(pieceId, position)` of the triangle variants:
collect candidates, sort ascending by distance, snap to the closest, and
return every candidate neighbor together with its whole connected group. -/
def checkAndSnapToNeighbors (pieces : List PieceS) (placed : PMap) (thr : ℚ)
    (pid : ℕ) (pos : Pt) : SnapResult :=
  match findPiece pieces pid with
  | none => ⟨false, pos, []⟩
  | some pc =>
    let cands := snapCandidates pieces placed thr pc pos
    match sortCands cands with
    | [] => ⟨false, pos, []⟩
    | best :: _ =>
      ⟨true, best.snapPos,
        cands.foldl (fun acc c =>
          addAllUniq (addUniq acc c.nId) (getConnectedGroup placed c.nId)) []⟩

/-- The snap-merge of the pool branch of the triangle `handleDragEnd`: the
dragged piece is written at `finalPos`; every other member of
`allConnected = {pieceId} ∪ neighbors` that exists in the previous map is
locked and given `connectedGroup = allConnected \ {self}`. -/
def mergeSnapT (prev : PMap) (pid : ℕ) (finalPos : Pt) (nbrs : List ℕ) : PMap :=
  let allC := addAllUniq (addUniq [] pid) nbrs
  writeEach prev allC (fun i =>
    if i = pid then some ⟨finalPos, true, allC.filter (fun c => decide (¬ c = i))⟩
    else (objGet prev i).map
      (fun old => ⟨old.pos, true, allC.filter (fun c => decide (¬ c = i))⟩))

/-- The pool branch of the triangle `handleDragEnd` (drop on the canvas):
snap-merge when a candidate was found, otherwise place loose and unlocked
at the drop position. -/
def poolDropT (pieces : List PieceS) (placed : PMap) (thr : ℚ)
    (pid : ℕ) (dropPos : Pt) : PMap :=
  let r := checkAndSnapToNeighbors pieces placed thr pid dropPos
  let finalPos := if r.shouldSnap then r.snapPosition else dropPos
  if r.shouldSnap ∧ r.neighbors ≠ [] then
    mergeSnapT placed pid finalPos r.neighbors
  else
    objSet placed pid ⟨finalPos, false, []⟩

/-- The group move of the placed branch of the triangle `handleDragEnd`:
every member of the dragged connected group that exists in the previous map
is shifted by the same delta and unlocked. -/
def moveGroupT (prev : PMap) (grp : List ℕ) (d : Pt) : PMap :=
  writeEach prev grp (fun i =>
    (objGet prev i).map (fun old => ⟨Pt.add old.pos d, false, old.group⟩))

/-- The `bestSnap` record of the placed branch: the group piece that snaps,
its current (moved) position, the target neighbor and the (squared)
distance. -/
structure BestSnap where
  snapPos : Pt
  groupPieceId : ℕ
  groupPiecePos : Pt
  neighborId : ℕ
  dsq : ℚ
deriving DecidableEq, Repr

/-- The candidate scan of the placed branch of the triangle `handleDragEnd`:
for every piece of the dragged group and every placed neighbor outside the
group within threshold, record the neighbor and keep the strictly closest
pair as `bestSnap` (first found wins ties). -/
def groupSnapScan (pieces : List PieceS) (nm : PMap) (grp : List ℕ)
    (thr : ℚ) : Option BestSnap × List ℕ :=
  grp.foldl (fun st gId =>
    match findPiece pieces gId, objGet nm gId with
    | some gp, some gPl =>
      gp.nbrs.foldl (fun st2 nOpt =>
        match nOpt with
        | none => st2
        | some nId =>
          if nId ∈ grp then st2
          else
            match objGet nm nId, findPiece pieces nId with
            | some nPl, some np =>
              if distLtB gPl.pos (expectedPos nPl gp np) thr then
                (match st2.1 with
                  | none => some ⟨expectedPos nPl gp np, gId, gPl.pos, nId,
                      distSq gPl.pos (expectedPos nPl gp np)⟩
                  | some b =>
                    if distSq gPl.pos (expectedPos nPl gp np) < b.dsq then
                      some ⟨expectedPos nPl gp np, gId, gPl.pos, nId,
                        distSq gPl.pos (expectedPos nPl gp np)⟩
                    else some b,
                 addUniq st2.2 nId)
              else st2
            | _, _ => st2) st
    | _, _ => st) (none, [])

/-- The `expandedNeighbors` walk of the placed branch: each candidate
neighbor's connected group, collected by walking `connectedGroup` links
without ever entering the dragged group. -/
def expandedNbrs (nm : PMap) (grp : List ℕ) (allN : List ℕ) : List ℕ :=
  allN.foldl (fun acc nId =>
    addAllUniq acc (bfsAux nm grp (bfsFuel nm nId) [nId] [])) []

/-- The merged id set of the placed-branch snap:
`new Set([...connectedGroup, ...expandedNeighbors])`. -/
def applyAllC (nm : PMap) (grp : List ℕ) (allN : List ℕ) : List ℕ :=
  addAllUniq (addAllUniq [] grp) (expandedNbrs nm grp allN)

/-- The snap application of the placed branch: shift the whole dragged
group so the best group piece lands exactly on its expected position,
expand the candidate neighbors by their connected groups, and lock the
union as one clique. -/
def applyGroupSnapT (nm : PMap) (grp : List ℕ) (bs : BestSnap)
    (allN : List ℕ) : PMap :=
  let snapOff : Pt := ⟨bs.snapPos.x - bs.groupPiecePos.x,
                       bs.snapPos.y - bs.groupPiecePos.y⟩
  writeEach nm (applyAllC nm grp allN) (fun i =>
    (objGet nm i).map (fun old =>
      ⟨if i ∈ grp then Pt.add old.pos snapOff else old.pos, true,
        (applyAllC nm grp allN).filter (fun c => decide (¬ c = i))⟩))

/-- The placed branch of the triangle `handleDragEnd`: move the whole
dragged group by the pointer delta, then scan for snaps and apply the best
one if any neighbor is in range. -/
def placedDropT (pieces : List PieceS) (placed : PMap) (thr : ℚ)
    (pid : ℕ) (d : Pt) : PMap :=
  let grp := getConnectedGroup placed pid
  let nm := moveGroupT placed grp d
  match groupSnapScan pieces nm grp thr with
  | (some bs, allN) => if allN ≠ [] then applyGroupSnapT nm grp bs allN else nm
  | (none, _) => nm

/-! ## The `part_002` variant (mouse events) -/

/-- `handleMouseMove` of `part_002`: the primary (first) piece of the drag
is written at the pointer target; every other dragged piece that exists is
shifted by the delta between the target and the primary's previous
position.  The primary's `connectedGroup` is reset to empty and every moved
piece is unlocked. -/
def handleMouseMoveU (prev : PMap) (dragIds : List ℕ) (target : Pt) : PMap :=
  match dragIds with
  | [] => prev
  | primary :: _ =>
    let off : Pt := match objGet prev primary with
      | some old => Pt.sub target old.pos
      | none => ⟨0, 0⟩
    writeEach prev dragIds (fun i =>
      if i = primary then some ⟨target, false, []⟩
      else (objGet prev i).map
        (fun old => ⟨Pt.add old.pos off, false, old.group⟩))

/-- The snap-merge of `handleMouseUp` in `part_002`: dragged pieces are
shifted onto the snap target and locked; candidate neighbors only have
their `connectedGroup` replaced (position and `isLocked` are kept from the
previous record by the object spread). -/
def mergeU (prev : PMap) (dragIds : List ℕ) (off : Pt) (nbrs : List ℕ) : PMap :=
  let allC := addAllUniq (addAllUniq [] dragIds) nbrs
  let m1 := writeEach prev dragIds (fun i =>
    (objGet prev i).map (fun old =>
      ⟨Pt.add old.pos off, true, allC.filter (fun c => decide (¬ c = i))⟩))
  writeEach m1 nbrs (fun i =>
    (objGet prev i).map (fun old =>
      ⟨old.pos, old.locked, allC.filter (fun c => decide (¬ c = i))⟩))

/-- `handleMouseUp` of `part_002` restricted to its state update: evaluate
the snap for the primary dragged piece at its current position and merge on
success. -/
def handleMouseUpU (pieces : List PieceS) (placed : PMap) (thr : ℚ)
    (dragIds : List ℕ) : PMap :=
  match dragIds with
  | [] => placed
  | primary :: _ =>
    match objGet placed primary with
    | none => placed
    | some pl =>
      let r := checkAndSnapToNeighbors pieces placed thr primary pl.pos
      if r.shouldSnap = true ∧ r.neighbors ≠ [] then
        mergeU placed dragIds (Pt.sub r.snapPosition pl.pos) r.neighbors
      else placed

/-! ## Solved checks -/

/-- Solved check of the triangle `page.tsx` variant: every piece placed,
pool empty, and a BFS over `connectedGroup` links from the first piece
visits every piece. -/
def solvedCheckT (pieces : List PieceS) (placed : PMap) (pool : List ℕ) : Bool :=
  match pieces with
  | [] => false
  | p0 :: _ =>
    if placed.length = pieces.length ∧ pool.length = 0 then
      decide ((getConnectedGroup placed p0.id).length = pieces.length)
    else false

/-- Solved check of `part_002` and of `puzzle-random`: pool empty and the
number of locked placed pieces equals the number of pieces. -/
def solvedCheckU (pieces : List PieceS) (placed : PMap) (pool : List ℕ) : Bool :=
  match pieces with
  | [] => false
  | _ :: _ =>
    if pool.length = 0 then
      decide ((placed.filter (fun e => e.2.locked)).length = pieces.length)
    else false

/-! ## Event machine of the triangle variant

The observable state is `(poolItems, placedPieces, dragSource/activeId)`;
the pointer events `handleDragStart`, `handleDragEnd` (pool branch with its
on/off-canvas cases, placed branch) and the double-click
`handleReturnToPool` are the transitions. -/

/-- Where the active drag started. -/
inductive DragSrc where
  | fromPool
  | fromPlaced
deriving DecidableEq, Repr

/-- Observable engine state of the triangle variant. -/
structure TriState where
  pool : List ℕ
  placed : PMap
  drag : Option (ℕ × DragSrc)
deriving DecidableEq, Repr

/-- `handleDragStart`: a pool piece is removed from the pool immediately
and the drag session records it; a placed piece only starts a session. -/
def handleDragStartT (s : TriState) (i : ℕ) : TriState :=
  if i ∈ s.pool then
    { s with pool := s.pool.filter (fun p => decide (¬ p = i)),
             drag := some (i, DragSrc.fromPool) }
  else if (objGet s.placed i).isSome then
    { s with drag := some (i, DragSrc.fromPlaced) }
  else s

/-- `handleDragEnd`: pool branch places (with snap evaluation) when dropped
on the canvas and returns the piece to the pool otherwise; placed branch
moves the dragged group and applies the best group snap. -/
def handleDragEndT (pieces : List PieceS) (thr : ℚ) (s : TriState)
    (overCanvas : Bool) (dropPos delta : Pt) : TriState :=
  match s.drag with
  | none => s
  | some (pid, DragSrc.fromPool) =>
    if (findPiece pieces pid).isNone then { s with drag := none }
    else if overCanvas then
      { s with placed := poolDropT pieces s.placed thr pid dropPos, drag := none }
    else
      { s with pool := s.pool ++ [pid], drag := none }
  | some (pid, DragSrc.fromPlaced) =>
    if (findPiece pieces pid).isNone then { s with drag := none }
    else
      { s with placed := placedDropT pieces s.placed thr pid delta, drag := none }

/-- `handleReturnToPool`: delete the whole connected group of the piece
from the placed map and append it to the pool. -/
def handleReturnToPoolT (s : TriState) (pid : ℕ) : TriState :=
  let grp := getConnectedGroup s.placed pid
  { s with placed := grp.foldl (fun m i => objDel m i) s.placed,
           pool := s.pool ++ grp }

/-- The reachable observable states of a triangle-variant session: the
initial state is the shuffled pool with nothing placed; transitions are the
pointer events.  `handleDragStart` only fires outside a drag session and
`handleReturnToPool` (double-click on a rendered placed piece) only on a
placed piece outside a drag session. -/
inductive ReachT (pieces : List PieceS) (thr : ℚ) : TriState → Prop where
  | init (ord : List ℕ) (hperm : ord.Perm (idsOf pieces)) :
      ReachT pieces thr ⟨ord, [], none⟩
  | dragStart (s : TriState) (i : ℕ) (hs : ReachT pieces thr s)
      (hdrag : s.drag = none) :
      ReachT pieces thr (handleDragStartT s i)
  | dragEnd (s : TriState) (overCanvas : Bool) (dropPos delta : Pt)
      (hs : ReachT pieces thr s) :
      ReachT pieces thr (handleDragEndT pieces thr s overCanvas dropPos delta)
  | returnToPool (s : TriState) (i : ℕ) (hs : ReachT pieces thr s)
      (hdrag : s.drag = none) (hplaced : (objGet s.placed i).isSome) :
      ReachT pieces thr (handleReturnToPoolT s i)

/-! ## Geometry: `createTrianglePuzzle` and `setupNeighbors`

Piece ids `piece-${row}-${col}-${triangleIndex}` are modelled by the triple
`(row, col, triangleIndex)`; the template-string edge keys are modelled by
the tuple of the interpolated numbers (two keys are equal iff the built
strings are equal). -/

/-- Geometric id of a triangle piece. -/
abbrev TId := ℕ × ℕ × ℕ

/-- Geometry view of a piece: its id and its polygon. -/
structure PieceG where
  id : TId
  polygon : List Pt
deriving DecidableEq, Repr

/-- The coincidence test `|p1.x - p2.x| < tol && |p1.y - p2.y| < tol`. -/
def ptClose (p1 p2 : Pt) (tol : ℚ) : Bool :=
  decide (|p1.x - p2.x| < tol) && decide (|p1.y - p2.y| < tol)

/-- The two triangles of one grid cell in `createTrianglePuzzle` of the
triangle variant (diagonal direction alternates with `(row + col) % 2`). -/
def cellPiecesT (row col : ℕ) (cellW cellH : ℚ) : List PieceG :=
  let tl : Pt := ⟨col * cellW, row * cellH⟩
  let tr : Pt := ⟨(col + 1) * cellW, row * cellH⟩
  let bl : Pt := ⟨col * cellW, (row + 1) * cellH⟩
  let br : Pt := ⟨(col + 1) * cellW, (row + 1) * cellH⟩
  if (row + col) % 2 = 0 then
    [⟨(row, col, 0), [tl, tr, br]⟩, ⟨(row, col, 1), [tl, br, bl]⟩]
  else
    [⟨(row, col, 0), [tl, tr, bl]⟩, ⟨(row, col, 1), [tr, br, bl]⟩]

/-- The triangulated grid of `createTrianglePuzzle` (triangle variant):
row-major cells, two triangles per cell, cell size `width/cols × height/rows`. -/
def trianglePiecesT (rows cols : ℕ) (w h : ℚ) : List PieceG :=
  (List.range rows).flatMap (fun row =>
    (List.range cols).flatMap (fun col =>
      cellPiecesT row col (w / cols) (h / rows)))

/-- The hard-coded vertex tolerance `0.1` of the triangle variant's
`setupNeighbors`. -/
def toleranceT : ℚ := 1/10

/-- `piece.polygon.filter(p1 => otherPiece.polygon.some(p2 => …))`:
the points of `A` that coincide (within `toleranceT`) with some point of `B`. -/
def sharedPointsT (A B : List Pt) : List Pt :=
  A.filter (fun p1 => B.any (fun p2 => ptClose p1 p2 toleranceT))

/-- Edge key of the triangle variant: the template string
built from the two shared points in the order found. -/
abbrev EdgeKeyT := Pt × Pt

/-- The `neighbors` object of one piece after the triangle variant's
`setupNeighbors`: for every other piece sharing exactly two coincident
points, an entry keyed by those two points in `piece.polygon` order. -/
def neighborsOfT (pieces : List PieceG) (piece : PieceG) :
    List (EdgeKeyT × TId) :=
  pieces.foldl (fun acc other =>
    if other.id = piece.id then acc
    else
      match sharedPointsT piece.polygon other.polygon with
      | [p0, p1] => objSet acc (p0, p1) other.id
      | _ => acc) []

/-- `setupNeighbors` of the triangle variant, as the finished
piece-id ↦ neighbors-object map. -/
def setupNeighborsT (pieces : List PieceG) :
    List (TId × List (EdgeKeyT × TId)) :=
  pieces.map (fun piece => (piece.id, neighborsOfT pieces piece))

/-! ### Geometry of the `puzzle-random` variant -/

/-- `generateTrianglePattern`: fan-split one cell into 4 triangles from a
deterministically varied interior point (pattern selected by
`(row*7 + col*13) % 6`). -/
def generateTrianglePattern (tl tr bl br : Pt) (row col : ℕ) : List (List Pt) :=
  let cellW := tr.x - tl.x
  let cellH := bl.y - tl.y
  let pt := (row * 7 + col * 13) % 6
  let cx : ℚ :=
    if pt = 0 then 1/2 else if pt = 1 then 3/10 else if pt = 2 then 7/10
    else if pt = 3 then 3/10 else if pt = 4 then 7/10 else if pt = 5 then 2/5
    else 1/2
  let cy : ℚ :=
    if pt = 0 then 1/2 else if pt = 1 then 7/20 else if pt = 2 then 3/10
    else if pt = 3 then 7/10 else if pt = 4 then 13/20 else if pt = 5 then 3/5
    else 1/2
  let interior : Pt := ⟨tl.x + cellW * cx, tl.y + cellH * cy⟩
  [[tl, tr, interior], [tr, br, interior], [br, bl, interior], [bl, tl, interior]]

/-- The pieces of `createTrianglePuzzle` of the `puzzle-random` variant
(`w`, `h` are the image dimensions after the `maxImageSize` rescale). -/
def trianglePiecesR (rows cols : ℕ) (w h : ℚ) : List PieceG :=
  (List.range rows).flatMap (fun row =>
    (List.range cols).flatMap (fun col =>
      let tl : Pt := ⟨col * (w / cols), row * (h / rows)⟩
      let tr : Pt := ⟨(col + 1) * (w / cols), row * (h / rows)⟩
      let bl : Pt := ⟨col * (w / cols), (row + 1) * (h / rows)⟩
      let br : Pt := ⟨(col + 1) * (w / cols), (row + 1) * (h / rows)⟩
      ((generateTrianglePattern tl tr bl br row col).enum).map
        (fun e => ⟨(row, col, e.1), e.2⟩)))

/-- Coincident-point collection of the `puzzle-random` `setupNeighbors`:
nested loops over both polygons, pushing `p1` unless a point within `0.01`
of it was already collected. -/
def sharedPointsR (A B : List Pt) (tol : ℚ) : List Pt :=
  A.foldl (fun acc p1 =>
    B.foldl (fun acc2 p2 =>
      if ptClose p1 p2 tol then
        if acc2.any (fun sp => ptClose sp p1 (1/100)) then acc2
        else acc2 ++ [p1]
      else acc2) acc) []

/-- The sort comparator `(a, b) => (|a.x−b.x| > 0.1 ? a.x−b.x : a.y−b.y)`
as a boolean "≤" relation. -/
def ptLeB (a b : Pt) : Bool :=
  if |a.x - b.x| > 1/10 then decide (a.x ≤ b.x) else decide (a.y ≤ b.y)

/-- `sharedPoints.sort(...)` (an ascending sort under the comparator). -/
def sortSharedR (pts : List Pt) : List Pt :=
  List.insertionSort (fun a b => ptLeB a b = true) pts

/-- Edge key of the `puzzle-random` variant: the template string built from
the two sorted shared points with coordinates rounded via
`Math.round(v * 10)`. -/
abbrev EdgeKeyR := (ℤ × ℤ) × (ℤ × ℤ)

/-- Key construction of the `puzzle-random` variant. -/
def edgeKeyR (p0 p1 : Pt) : EdgeKeyR :=
  ((jsRound (p0.x * 10), jsRound (p0.y * 10)),
   (jsRound (p1.x * 10), jsRound (p1.y * 10)))

/-- Update one piece's neighbors object inside the id ↦ neighbors map. -/
def nbrMapUpdate (st : List (TId × List (EdgeKeyR × TId))) (i : TId)
    (k : EdgeKeyR) (v : TId) : List (TId × List (EdgeKeyR × TId)) :=
  st.map (fun e => if e.1 = i then (e.1, objSet e.2 k v) else e)

/-- `setupNeighbors(pieces, tolerance)` of the `puzzle-random` variant:
for every index pair `i < j` with at least two coincident points, both
pieces record each other under the same sorted-and-rounded edge key. -/
def setupNeighborsR (pieces : List PieceG) (tol : ℚ) :
    List (TId × List (EdgeKeyR × TId)) :=
  let init := pieces.map (fun p => (p.id, ([] : List (EdgeKeyR × TId))))
  pieces.enum.foldl (fun st pi =>
    pieces.enum.foldl (fun st2 pj =>
      if pi.1 ≥ pj.1 then st2
      else
        match sortSharedR (sharedPointsR pi.2.polygon pj.2.polygon tol) with
        | p0 :: p1 :: _ =>
          nbrMapUpdate (nbrMapUpdate st2 pi.2.id (edgeKeyR p0 p1) pj.2.id)
            pj.2.id (edgeKeyR p0 p1) pi.2.id
        | _ => st2) st) init

/-- Piece A's neighbors object records B under key `k` (for either
variant's key type). -/
def records {K : Type} [DecidableEq K] (nbrs : List (TId × List (K × TId)))
    (a : TId) (k : K) (b : TId) : Prop :=
  ∃ m, objGet nbrs a = some m ∧ objGet m k = some b

/-- Executable form of `records`. -/
def recordsB {K : Type} [DecidableEq K] (nbrs : List (TId × List (K × TId)))
    (a : TId) (k : K) (b : TId) : Bool :=
  match objGet nbrs a with
  | some m => decide (objGet m k = some b)
  | none => false

/-- Checks that every recorded neighbor entry is reciprocated under the
same key. -/
def symKeyCheck {K : Type} [DecidableEq K]
    (nbrs : List (TId × List (K × TId))) : Bool :=
  nbrs.all (fun ent => ent.2.all (fun e =>
    match objGet nbrs e.2 with
    | some mb => decide (objGet mb e.1 = some ent.1)
    | none => false))

/-- Checks that every recorded neighbor entry is reciprocated under some
(possibly different) key. -/
def symRelCheck {K : Type} [DecidableEq K]
    (nbrs : List (TId × List (K × TId))) : Bool :=
  nbrs.all (fun ent => ent.2.all (fun e =>
    match objGet nbrs e.2 with
    | some mb => mb.any (fun e2 => decide (objGet mb e2.1 = some ent.1))
    | none => false))

/-! ## Piece-count configuration tables -/

/-- The `getPieceDimensions` mapping of the triangle variant
(`pieceCount ↦ { rows, cols }`). -/
def pieceDimsTable : List (ℕ × ℕ × ℕ) :=
  [(8, 2, 2), (12, 2, 3), (18, 3, 3), (24, 3, 4),
   (32, 4, 4), (40, 4, 5), (50, 5, 5), (72, 6, 6)]

/-- `getPieceDimensions(pieceCount)`: table lookup with silent fallback to
`{ rows: 4, cols: 4 }` (`mapping[pieceCount] || { rows: 4, cols: 4 }`). -/
def getPieceDimensions (pieceCount : ℕ) : ℕ × ℕ :=
  match pieceDimsTable.find? (fun e => e.1 = pieceCount) with
  | some e => (e.2.1, e.2.2)
  | none => (4, 4)

/-- The `gridMap` of `getGridForPieceCount` (`pieces ↦ rows × cols`). -/
def gridMapR : List (ℕ × ℕ × ℕ) :=
  [(4, 1, 1), (8, 1, 2), (12, 1, 3), (16, 2, 2), (20, 1, 5), (24, 2, 3),
   (32, 2, 4), (36, 3, 3), (40, 2, 5), (48, 3, 4), (60, 3, 5), (64, 4, 4),
   (72, 3, 6), (80, 4, 5), (96, 4, 6), (100, 5, 5), (120, 5, 6), (144, 6, 6)]

/-- `Math.abs(piecesCount - g.pieces)` over naturals. -/
def natDiff (a b : ℕ) : ℕ := Int.natAbs ((a : ℤ) - (b : ℤ))

/-- `getGridForPieceCount(piecesCount)`: exact table lookup, else the
closest entry by absolute difference (first minimum wins). -/
def getGridForPieceCount (n : ℕ) : ℕ × ℕ :=
  match gridMapR.find? (fun e => e.1 = n) with
  | some e => (e.2.1, e.2.2)
  | none =>
    let closest := gridMapR.foldl
      (fun c g => if natDiff n g.1 < natDiff n c.1 then g else c) gridMapR.headI
    (closest.2.1, closest.2.2)

/-- The `PIECE_CONFIGURATIONS` record of the `part_003` triangular variant
(`totalPieces ↦ [rows, cols]`). -/
def pieceConfigs3 : List (ℕ × (ℕ × ℕ)) :=
  [(4, (1, 1)), (6, (1, 2)), (8, (2, 1)), (9, (2, 2)), (12, (2, 2)),
   (15, (2, 3)), (16, (2, 3)), (18, (3, 2)), (20, (3, 3)), (24, (3, 3)),
   (25, (3, 4)), (28, (3, 4)), (30, (4, 3)), (32, (4, 3)), (35, (4, 4)),
   (36, (4, 4)), (40, (4, 4)), (42, (4, 5)), (45, (4, 5)), (48, (5, 4)),
   (50, (5, 5))]

/-- `AVAILABLE_PIECE_COUNTS` of `part_003`:
`Object.keys(PIECE_CONFIGURATIONS).map(Number).sort((a, b) => a - b)`. -/
def availablePieceCounts : List ℕ :=
  List.insertionSort (fun a b => a ≤ b) (pieceConfigs3.map (fun e => e.1))

/-- The configuration stage of `createTrianglePuzzle` in `part_003`:
`PIECE_CONFIGURATIONS[totalPieces]` is looked up and a missing entry throws
`` `No configuration found for ${totalPieces} pieces. Available:
${AVAILABLE_PIECE_COUNTS.join(', ')}` `` — the error payload models the two
interpolated values of that message. -/
def createTrianglePuzzleConfig (totalPieces : ℕ) :
    Except (ℕ × List ℕ) (ℕ × ℕ) :=
  match objGet pieceConfigs3 totalPieces with
  | none => Except.error (totalPieces, availablePieceCounts)
  | some config => Except.ok config

/-! ## The exact-slot variant (`puzzleGame-berhasil.tsx`) -/

/-- Static piece of the exact-slot variant (only `id` and `correctIndex`
matter to the engine). -/
structure PieceB where
  id : ℕ
  correctIndex : ℕ
deriving DecidableEq, Repr

/-- `pieces.find(p => p.id === i)`. -/
def findPieceB (pieces : List PieceB) (i : ℕ) : Option PieceB :=
  pieces.find? (fun p => p.id = i)

/-- The drop target reported by dnd-kit (`over`): a grid slot, the pool
container, or nothing. -/
inductive OverB where
  | slot (idx : ℕ)
  | pool
  | offTarget
deriving DecidableEq, Repr

/-- Observable outcome of one `handleDragEnd` of the exact-slot variant:
`occupied` and `wrongPos` are the two alert signals. -/
inductive SignalB where
  | placedOk
  | occupied
  | wrongPos
  | returnedToPool
  | ignored
deriving DecidableEq, Repr

/-- `handleDragEnd` of the exact-slot variant.  A drop on an occupied slot
(or a slot index outside the grid, whose cell reads as JS `undefined`)
raises the occupied alert and changes nothing; a drop on an empty slot
whose index differs from the piece's `correctIndex` raises the wrong-position
alert and changes nothing; only a drop on the piece's own empty slot places
it; a drop on the pool container returns a grid piece to the pool. -/
def handleDragEndB (pieces : List PieceB) (grid : List (Option ℕ))
    (pool : List ℕ) (activeId : ℕ) (over : OverB) :
    List (Option ℕ) × List ℕ × SignalB :=
  match over with
  | OverB.offTarget => (grid, pool, SignalB.ignored)
  | OverB.slot idx =>
    match findPieceB pieces activeId with
    | none => (grid, pool, SignalB.ignored)
    | some piece =>
      match grid[idx]? with
      | none => (grid, pool, SignalB.occupied)
      | some cell =>
        if cell ≠ none then (grid, pool, SignalB.occupied)
        else if piece.correctIndex ≠ idx then (grid, pool, SignalB.wrongPos)
        else (grid.set idx (some activeId),
              pool.filter (fun i => decide (¬ i = activeId)), SignalB.placedOk)
  | OverB.pool =>
    match findPieceB pieces activeId with
    | none => (grid, pool, SignalB.ignored)
    | some _ =>
      match grid.findIdx? (fun c => c = some activeId) with
      | some gIdx => (grid.set gIdx none, pool ++ [activeId], SignalB.returnedToPool)
      | none => (grid, pool, SignalB.ignored)

/-- `gridItems.every((id, idx) => pieces.find(p => p.id === id)?.correctIndex === idx)`
starting at index `i`. -/
def everyIdxFrom (pieces : List PieceB) : ℕ → List (Option ℕ) → Bool
  | _, [] => true
  | i, c :: t =>
    (match c with
     | some id => decide ((findPieceB pieces id).map (fun p => p.correctIndex) = some i)
     | none => false) && everyIdxFrom pieces (i + 1) t

/-- Solved check of the exact-slot variant: pool empty, grid full, and
every slot holds the piece whose `correctIndex` is that slot. -/
def solvedCheckB (pieces : List PieceB) (grid : List (Option ℕ))
    (pool : List ℕ) : Bool :=
  if pool.length = 0 ∧ ¬ (none ∈ grid) then everyIdxFrom pieces 0 grid
  else false

/-- Observable state of the exact-slot variant. -/
structure BState where
  grid : List (Option ℕ)
  pool : List ℕ
deriving DecidableEq, Repr

/-- Reachable states of an exact-slot session: either init mode (`empty`
starts with a blank grid; `partial` mode pre-places a chosen subset of the
pieces, each at its own `correctIndex`), then any sequence of drag ends. -/
inductive ReachB (pieces : List PieceB) (total : ℕ) : BState → Prop where
  | initEmpty (ord : List ℕ) (hperm : ord.Perm (pieces.map (fun p => p.id))) :
      ReachB pieces total ⟨List.replicate total none, ord⟩
  | initPrefilled (chosen : List PieceB) (rest : List ℕ)
      (hch : ∀ p ∈ chosen, p ∈ pieces) :
      ReachB pieces total
        ⟨chosen.foldl (fun g p => g.set p.correctIndex (some p.id))
          (List.replicate total none), rest⟩
  | step (s : BState) (activeId : ℕ) (over : OverB)
      (hs : ReachB pieces total s) :
      ReachB pieces total
        ⟨(handleDragEndB pieces s.grid s.pool activeId over).1,
         (handleDragEndB pieces s.grid s.pool activeId over).2.1⟩

/-! ## Tolerance and piece-dimension accounting for C7 -/

/-- `Math.min(...)` of a list (0 for the empty list; all uses are nonempty). -/
def listMin (l : List ℚ) : ℚ :=
  match l with
  | [] => 0
  | a :: t => t.foldl min a

/-- `Math.max(...)` of a list (0 for the empty list; all uses are nonempty). -/
def listMax (l : List ℚ) : ℚ :=
  match l with
  | [] => 0
  | a :: t => t.foldl max a

/-- `getPolygonBounds(...).width`. -/
def boundsW (poly : List Pt) : ℚ :=
  listMax (poly.map (fun p => p.x)) - listMin (poly.map (fun p => p.x))

/-- `getPolygonBounds(...).height`. -/
def boundsH (poly : List Pt) : ℚ :=
  listMax (poly.map (fun p => p.y)) - listMin (poly.map (fun p => p.y))

/-- The minimum piece dimension of the generated triangle partition. -/
def minPieceDimT (rows cols : ℕ) (w h : ℚ) : ℚ :=
  listMin ((trianglePiecesT rows cols w h).map
    (fun p => min (boundsW p.polygon) (boundsH p.polygon)))

/-- The vertex tolerance the triangle variant's `setupNeighbors` applies
when resolving the partition generated for a given configuration: the
source hard-codes `0.1` (line 223 of `puzzle-triangle/page.tsx`),
independent of the configuration. -/
def toleranceUsedT (_rows _cols : ℕ) (_w _h : ℚ) : ℚ := toleranceT

/-- The tolerance the `puzzle-random` variant passes to its
`setupNeighbors` for a given configuration: the call site
`setupNeighbors(pieces, 1.0)` hard-codes `1.0`. -/
def toleranceUsedR (_rows _cols : ℕ) (_w _h : ℚ) : ℚ := 1

/-! ## C7 -/

/-! ## C8 -/

/-! ## C9 -/

/-! ## C10 -/

/-- Every piece present in the grid occupies exactly its correct slot. -/
def gridOK (pieces : List PieceB) (grid : List (Option ℕ)) : Prop :=
  ∀ idx id, grid[idx]? = some (some id) →
    ∃ p, findPieceB pieces id = some p ∧ p.correctIndex = idx

/-- The 2×1 triangle partition on a 2×2 image and its neighbor maps. -/
def piecesT21 : List PieceG := trianglePiecesT 2 1 2 2

/-- Neighbor maps of `piecesT21` under the triangle `setupNeighbors`. -/
def nbrsT21 : List (TId × List (EdgeKeyT × TId)) := setupNeighborsT piecesT21

/-- The 2×2 triangle partition on a 2×2 image and its neighbor maps. -/
def piecesT22 : List PieceG := trianglePiecesT 2 2 2 2

/-- Neighbor maps of `piecesT22` under the triangle `setupNeighbors`. -/
def nbrsT22 : List (TId × List (EdgeKeyT × TId)) := setupNeighborsT piecesT22

/-- The 2×2 `puzzle-random` partition on a 200×200 image and its neighbor
maps (tolerance 1.0, the value the source passes). -/
def piecesR22 : List PieceG := trianglePiecesR 2 2 200 200

/-- Neighbor maps of `piecesR22` under the `puzzle-random` `setupNeighbors`. -/
def nbrsR22 : List (TId × List (EdgeKeyR × TId)) := setupNeighborsR piecesR22 1

/-- Two disjoint locked two-piece cliques with an empty pool. -/
def piecesC4 : List PieceS :=
  [⟨0, ⟨0, 0⟩, []⟩, ⟨1, ⟨1, 0⟩, []⟩, ⟨2, ⟨2, 0⟩, []⟩, ⟨3, ⟨3, 0⟩, []⟩]

/-- Placed map for the C4 counterexample: pieces 0–1 form one locked
group, pieces 2–3 another; the two groups are not connected. -/
def placedC4 : PMap :=
  [(0, ⟨⟨0, 0⟩, true, [1]⟩), (1, ⟨⟨1, 0⟩, true, [0]⟩),
   (2, ⟨⟨10, 10⟩, true, [3]⟩), (3, ⟨⟨11, 10⟩, true, [2]⟩)]

/-- Fully assembled two-piece state for the C4 witness. -/
def piecesW4 : List PieceS := [⟨0, ⟨0, 0⟩, []⟩, ⟨1, ⟨1, 0⟩, []⟩]

/-- Placed map for the C4 witness: one locked two-piece clique. -/
def placedW4 : PMap := [(0, ⟨⟨0, 0⟩, true, [1]⟩), (1, ⟨⟨1, 0⟩, true, [0]⟩)]

/-- Two placed pieces forming one locked group, for the C3 witness. -/
def placedW3 : PMap := [(0, ⟨⟨1, 1⟩, true, [1]⟩), (1, ⟨⟨3, 1⟩, true, [0]⟩)]

/-- Pieces for the C2 counterexample and witness: 0 and 1 are mutual
neighbors; correct positions (0,0) and (10,0). -/
def piecesC2 : List PieceS := [⟨0, ⟨0, 0⟩, [some 1]⟩, ⟨1, ⟨10, 0⟩, [some 0]⟩]

/-- Placed map for the C2 counterexample: piece 0 placed loose (unlocked)
at (100,100); piece 1 — just dragged from the pool by `handleMouseMove` —
loose at (105,100), within the snap threshold 20 of its expected position
(110,100) next to 0. -/
def placedC2 : PMap :=
  [(0, ⟨⟨100, 100⟩, false, []⟩), (1, ⟨⟨105, 100⟩, false, []⟩)]

/-! ## C5: supporting inclusion lemmas -/

/-- Well-formedness of a placed map with respect to a piece set: every key
and every stored `connectedGroup` member is a real piece id. -/
def PlacedWF (pieces : List PieceS) (m : PMap) : Prop :=
  ∀ e ∈ m, e.1 ∈ idsOf pieces ∧ ∀ j ∈ e.2.group, j ∈ idsOf pieces

/-! ## C5: the pool/placed partition invariant -/

/-- The pool and the placed map together cover every piece id. -/
def CoverAll (pieces : List PieceS) (s : TriState) : Prop :=
  ∀ i ∈ idsOf pieces, i ∈ s.pool ∨ (objGet s.placed i).isSome = true

/-- The observable-state invariant of the triangle variant: the pool and
the placed map are disjoint, the placed map is well-formed, pool ids are
piece ids, and coverage of all piece ids holds — except that during a drag
that started from the pool, the dragged piece is in neither collection. -/
def InvT (pieces : List PieceS) (s : TriState) : Prop :=
  (∀ i ∈ s.pool, objGet s.placed i = none) ∧
  PlacedWF pieces s.placed ∧
  (∀ i ∈ s.pool, i ∈ idsOf pieces) ∧
  (match s.drag with
   | none => CoverAll pieces s
   | some (d, DragSrc.fromPool) =>
       d ∈ idsOf pieces ∧ d ∉ s.pool ∧ objGet s.placed d = none ∧
       ∀ i ∈ idsOf pieces, i ∈ s.pool ∨ (objGet s.placed i).isSome = true ∨ i = d
   | some (d, DragSrc.fromPlaced) => d ∈ idsOf pieces ∧ CoverAll pieces s)

/-- Two triangle pieces that are mutual neighbors. -/
def piecesW5 : List PieceS := [⟨0, ⟨0, 0⟩, [some 1]⟩, ⟨1, ⟨10, 0⟩, [some 0]⟩]

/-! ## C1: snap candidacy, minimum selection and exact landing -/

/-- Two mutually neighboring pieces for the C1 scenarios. -/
def piecesC1 : List PieceS := [⟨0, ⟨0, 0⟩, [some 1]⟩, ⟨1, ⟨10, 0⟩, [some 0]⟩]

/-- A placed map where pieces 0 and 1 form one connected group. -/
def placedC1 : PMap :=
  [(0, ⟨⟨50, 50⟩, true, [1]⟩), (1, ⟨⟨60, 50⟩, true, [0]⟩)]

/-- The moved map of a group drag of piece 0 by `(1, 0)`. -/
def nmC1 : PMap := moveGroupT placedC1 (getConnectedGroup placedC1 0) ⟨1, 0⟩

/-! ### Theorems -/

theorem distSq_nonneg (p q : Pt) : 0 ≤ distSq p q := by
  have h1 : (0:ℚ) ≤ (p.x - q.x) ^ 2 := sq_nonneg _
  have h2 : (0:ℚ) ≤ (p.y - q.y) ^ 2 := sq_nonneg _
  simpa [distSq] using add_nonneg h1 h2

/-- The embedded comparison agrees with the source's comparison of the real
Euclidean distance against the threshold. -/
theorem distLtB_iff_sqrt (p q : Pt) (t : ℚ) :
    distLtB p q t = true ↔ Real.sqrt ((distSq p q : ℚ) : ℝ) < (t : ℝ) := by
  constructor
  · intro h
    rw [distLtB, Bool.and_eq_true, decide_eq_true_iff, decide_eq_true_iff] at h
    obtain ⟨ht, hd⟩ := h
    have ht' : (0:ℝ) < (t : ℝ) := by exact_mod_cast ht
    rw [show ((t:ℝ)) = Real.sqrt ((t:ℝ) ^ 2) from (Real.sqrt_sq ht'.le).symm]
    apply Real.sqrt_lt_sqrt (by exact_mod_cast distSq_nonneg p q)
    have : (distSq p q : ℝ) < (t : ℝ) * (t : ℝ) := by exact_mod_cast hd
    nlinarith
  · intro h
    have hnn : (0:ℝ) ≤ Real.sqrt ((distSq p q : ℚ) : ℝ) := Real.sqrt_nonneg _
    have ht' : (0:ℝ) < (t : ℝ) := lt_of_le_of_lt hnn h
    have ht : (0:ℚ) < t := by exact_mod_cast ht'
    have hd' : ((distSq p q : ℚ) : ℝ) < (t:ℝ) ^ 2 := (Real.sqrt_lt' ht').mp h
    have hd : distSq p q < t * t := by
      have : ((distSq p q : ℚ) : ℝ) < (t:ℝ) * (t:ℝ) := by nlinarith
      exact_mod_cast this
    rw [distLtB, Bool.and_eq_true, decide_eq_true_iff, decide_eq_true_iff]
    exact ⟨ht, hd⟩

section AssocMaps

variable {K V : Type} [DecidableEq K]

theorem objGet_nil (k : K) : objGet ([] : List (K × V)) k = none := rfl

theorem objGet_cons (a : K × V) (t : List (K × V)) (k : K) :
    objGet (a :: t) k = if a.1 = k then some a.2 else objGet t k := by
  by_cases h : a.1 = k
  · rw [objGet, List.find?_cons_of_pos _ (by simpa using h), if_pos h]
    rfl
  · rw [objGet, List.find?_cons_of_neg _ (by simpa using h), if_neg h]
    rfl

theorem objGet_map_overwrite (m : List (K × V)) (k : K) (v : V)
    (hany : (m.any (fun e => e.1 = k)) = true) :
    objGet (m.map (fun e => if e.1 = k then (k, v) else e)) k = some v := by
  induction m with
  | nil => simp at hany
  | cons a t ih =>
    by_cases hak : a.1 = k
    · rw [List.map_cons, if_pos hak, objGet_cons]
      simp
    · rw [List.map_cons, if_neg hak, objGet_cons, if_neg hak]
      apply ih
      rw [List.any_cons, Bool.or_eq_true] at hany
      rcases hany with h1 | h2
      · exact absurd (of_decide_eq_true h1) hak
      · exact h2

theorem objGet_objSet_self (m : List (K × V)) (k : K) (v : V) :
    objGet (objSet m k v) k = some v := by
  rw [objSet]
  split
  · next hany => exact objGet_map_overwrite m k v hany
  · next hany =>
    induction m with
    | nil =>
      rw [List.nil_append, objGet_cons]
      simp
    | cons a t ih =>
      have hak : ¬ (a.1 = k) := by
        intro hk
        exact hany (by simp [List.any_cons, hk])
      rw [List.cons_append, objGet_cons, if_neg hak]
      exact ih (fun h => hany (by simp [List.any_cons, h]))

theorem objGet_objSet_ne (m : List (K × V)) (k k' : K) (v : V) (h : k' ≠ k) :
    objGet (objSet m k v) k' = objGet m k' := by
  rw [objSet]
  split
  · next hany =>
    clear hany
    induction m with
    | nil => simp
    | cons a t ih =>
      rw [List.map_cons, objGet_cons, objGet_cons]
      by_cases hak : a.1 = k
      · rw [if_pos hak]
        rw [show ((k, v) : K × V).1 = k from rfl]
        rw [if_neg (fun hh : k = k' => h hh.symm), if_neg (fun hh : a.1 = k' => h (hak ▸ hh).symm)]
        exact ih
      · rw [if_neg hak]
        by_cases hak' : a.1 = k'
        · rw [if_pos hak', if_pos hak']
        · rw [if_neg hak', if_neg hak']
          exact ih
  · next hany =>
    clear hany
    induction m with
    | nil =>
      rw [List.nil_append, objGet_cons, objGet_nil]
      rw [show ((k, v) : K × V).1 = k from rfl]
      rw [if_neg (fun hh : k = k' => h hh.symm)]
    | cons a t ih =>
      rw [List.cons_append, objGet_cons, objGet_cons]
      by_cases hak' : a.1 = k'
      · rw [if_pos hak', if_pos hak']
      · rw [if_neg hak', if_neg hak']
        exact ih

theorem objGet_objDel (m : List (K × V)) (k k' : K) :
    objGet (objDel m k) k' = if k' = k then none else objGet m k' := by
  induction m with
  | nil => simp [objGet_nil, objDel]
  | cons a t ih =>
    rw [objDel, List.filter_cons]
    by_cases hak : a.1 = k
    · rw [if_neg (by simp [hak])]
      rw [objDel] at ih
      rw [ih]
      by_cases hk : k' = k
      · simp [hk]
      · rw [if_neg hk, if_neg hk, objGet_cons]
        rw [if_neg (fun hh : a.1 = k' => hk (hh ▸ hak ▸ rfl))]
    · rw [if_pos (by simp [hak])]
      rw [objGet_cons]
      by_cases hak' : a.1 = k'
      · have hk : ¬ (k' = k) := fun hh => hak (hak' ▸ hh ▸ rfl)
        rw [if_neg hk, objGet_cons, if_pos hak', if_pos hak']
      · rw [if_neg hak']
        rw [objDel] at ih
        rw [ih]
        by_cases hk : k' = k
        · simp [hk]
        · rw [if_neg hk, if_neg hk, objGet_cons, if_neg hak']

end AssocMaps

theorem mem_addUniq (l : List ℕ) (x y : ℕ) :
    y ∈ addUniq l x ↔ y ∈ l ∨ y = x := by
  rw [addUniq]
  split
  · next h =>
    constructor
    · exact fun hy => Or.inl hy
    · rintro (hy | rfl)
      · exact hy
      · exact h
  · simp

theorem addUniq_nodup (l : List ℕ) (x : ℕ) (h : l.Nodup) : (addUniq l x).Nodup := by
  rw [addUniq]
  split
  · exact h
  · next hx =>
    rw [List.nodup_append]
    refine ⟨h, List.nodup_singleton x, ?_⟩
    intro a ha hax
    rw [List.mem_singleton] at hax
    exact hx (hax ▸ ha)

theorem mem_addAllUniq (l : List ℕ) (xs : List ℕ) (y : ℕ) :
    y ∈ addAllUniq l xs ↔ y ∈ l ∨ y ∈ xs := by
  induction xs generalizing l with
  | nil => simp [addAllUniq]
  | cons a t ih =>
    rw [addAllUniq, List.foldl_cons]
    have hmem := ih (addUniq l a)
    rw [addAllUniq] at hmem
    rw [hmem, mem_addUniq, List.mem_cons]
    tauto

theorem addAllUniq_nodup (l : List ℕ) (xs : List ℕ) (h : l.Nodup) :
    (addAllUniq l xs).Nodup := by
  induction xs generalizing l with
  | nil => exact h
  | cons a t ih =>
    rw [addAllUniq, List.foldl_cons]
    have := ih (addUniq l a) (addUniq_nodup l a h)
    rw [addAllUniq] at this
    exact this

theorem mem_allGroupIds_of_mem_groupOf (placed : PMap) (c x : ℕ)
    (h : x ∈ groupOf placed c) : x ∈ allGroupIds placed := by
  induction placed with
  | nil => simp [groupOf, objGet] at h
  | cons a t ih =>
    rw [groupOf, objGet_cons] at h
    rw [allGroupIds, List.foldr_cons, List.mem_append]
    by_cases hac : a.1 = c
    · rw [if_pos hac] at h
      exact Or.inl h
    · rw [if_neg hac] at h
      exact Or.inr (ih (by rw [groupOf]; exact h))

theorem length_groupOf_le (placed : PMap) (c : ℕ) :
    (groupOf placed c).length ≤ (allGroupIds placed).length := by
  induction placed with
  | nil => simp [groupOf, objGet]
  | cons a t ih =>
    rw [groupOf, objGet_cons]
    rw [allGroupIds, List.foldr_cons, List.length_append]
    by_cases hac : a.1 = c
    · rw [if_pos hac]
      exact Nat.le_add_right _ _
    · rw [if_neg hac]
      calc (groupOf t c).length ≤ (allGroupIds t).length := by
            rw [groupOf] at ih; exact ih
        _ ≤ _ := Nat.le_add_left _ _

theorem bfsAux_nodup (placed : PMap) (blocked : List ℕ) (f : ℕ) (q vis : List ℕ)
    (h : vis.Nodup) : (bfsAux placed blocked f q vis).Nodup := by
  induction f generalizing q vis with
  | zero => exact h
  | succ f ih =>
    match q with
    | [] => exact h
    | c :: q' =>
      rw [bfsAux]
      split
      · exact ih q' vis h
      · next hc =>
        apply ih
        rw [List.nodup_append]
        refine ⟨h, List.nodup_singleton c, ?_⟩
        intro a ha hax
        rw [List.mem_singleton] at hax
        subst hax
        exact hc (Or.inl ha)

theorem bfsAux_sound (placed : PMap) (blocked : List ℕ) (f : ℕ) (q vis : List ℕ)
    (x : ℕ) (hx : x ∈ bfsAux placed blocked f q vis) :
    x ∈ vis ∨ ∃ s ∈ q, Relation.ReflTransGen (stepRel placed) s x := by
  induction f generalizing q vis with
  | zero => exact Or.inl hx
  | succ f ih =>
    match q with
    | [] => exact Or.inl hx
    | c :: q' =>
      rw [bfsAux] at hx
      split at hx
      · rcases ih q' vis hx with h | ⟨s, hs, hrtg⟩
        · exact Or.inl h
        · exact Or.inr ⟨s, List.mem_cons_of_mem c hs, hrtg⟩
      · rcases ih _ _ hx with h | ⟨s, hs, hrtg⟩
        · rcases List.mem_append.mp h with h1 | h2
          · exact Or.inl h1
          · rw [List.mem_singleton] at h2
            exact Or.inr ⟨c, List.mem_cons_self c q', h2 ▸ Relation.ReflTransGen.refl⟩
        · rcases List.mem_append.mp hs with h1 | h2
          · exact Or.inr ⟨s, List.mem_cons_of_mem c h1, hrtg⟩
          · rw [List.mem_filter] at h2
            have hstep : stepRel placed c s := h2.1
            exact Or.inr ⟨c, List.mem_cons_self c q',
              Relation.ReflTransGen.head hstep hrtg⟩

theorem length_le_dedup_of_nodup_subset (l u : List ℕ) (hn : l.Nodup)
    (hsub : ∀ x ∈ l, x ∈ u) : l.length ≤ u.dedup.length := by
  classical
  have h1 : l.toFinset.card = l.length := List.toFinset_card_of_nodup hn
  have h3 : l.toFinset ⊆ u.toFinset := by
    intro a ha
    rw [List.mem_toFinset] at ha ⊢
    exact hsub a ha
  have h4 : l.toFinset.card ≤ u.toFinset.card := Finset.card_le_card h3
  have h2 : u.toFinset.card = u.dedup.length := List.card_toFinset u
  omega

/-- Completeness of the fuelled BFS, given enough fuel: the result contains
the visited set and the queue, and is closed under `connectedGroup` hops. -/
theorem bfsAux_complete (placed : PMap) (k : ℕ)
    (hk : ∀ c, (groupOf placed c).length ≤ k)
    (u : List ℕ) (hgu : ∀ c x, x ∈ groupOf placed c → x ∈ u) :
    ∀ (f : ℕ) (q vis : List ℕ),
    (∀ x ∈ q, x ∈ u) → (∀ x ∈ vis, x ∈ u) → vis.Nodup →
    (∀ v ∈ vis, ∀ w, stepRel placed v w → w ∈ vis ∨ w ∈ q) →
    (k + 1) * (u.dedup.length - vis.length) + q.length < f →
    (∀ x ∈ vis, x ∈ bfsAux placed [] f q vis) ∧
    (∀ x ∈ q, x ∈ bfsAux placed [] f q vis) ∧
    (∀ v ∈ bfsAux placed [] f q vis, ∀ w, stepRel placed v w →
      w ∈ bfsAux placed [] f q vis) := by
  intro f
  induction f with
  | zero =>
    intro q vis _ _ _ _ hfuel
    omega
  | succ f ih =>
    intro q vis hqu hvu hvnd hinv hfuel
    match q with
    | [] =>
      refine ⟨fun x hx => hx, fun x hx => absurd hx (List.not_mem_nil x), ?_⟩
      intro v hv w hw
      rcases hinv v hv w hw with h | h
      · exact h
      · exact absurd h (List.not_mem_nil w)
    | c :: q' =>
      rw [bfsAux]
      by_cases hc : c ∈ vis
      · rw [if_pos (Or.inl hc)]
        have hinv' : ∀ v ∈ vis, ∀ w, stepRel placed v w → w ∈ vis ∨ w ∈ q' := by
          intro v hv w hw
          rcases hinv v hv w hw with h | h
          · exact Or.inl h
          · rcases List.mem_cons.mp h with rfl | h2
            · exact Or.inl hc
            · exact Or.inr h2
        have hfuel' : (k + 1) * (u.dedup.length - vis.length) + q'.length < f := by
          rw [List.length_cons] at hfuel
          omega
        obtain ⟨hA, hB, hC⟩ := ih q' vis (fun x hx => hqu x (List.mem_cons_of_mem c hx))
          hvu hvnd hinv' hfuel'
        refine ⟨hA, ?_, hC⟩
        intro x hx
        rcases List.mem_cons.mp hx with rfl | h2
        · exact hA x hc
        · exact hB x h2
      · have hcb : ¬ (c ∈ vis ∨ c ∈ ([] : List ℕ)) := by
          intro h
          rcases h with h | h
          · exact hc h
          · exact absurd h (List.not_mem_nil c)
        rw [if_neg hcb]
        set push := (groupOf placed c).filter (fun x => decide (¬ x ∈ vis ++ [c])) with hpush
        have hcu : c ∈ u := hqu c (List.mem_cons_self c q')
        have hvu' : ∀ x ∈ vis ++ [c], x ∈ u := by
          intro x hx
          rcases List.mem_append.mp hx with h | h
          · exact hvu x h
          · rw [List.mem_singleton] at h
            exact h ▸ hcu
        have hvnd' : (vis ++ [c]).Nodup := by
          rw [List.nodup_append]
          refine ⟨hvnd, List.nodup_singleton c, ?_⟩
          intro a ha hax
          rw [List.mem_singleton] at hax
          exact hc (hax ▸ ha)
        have hqu' : ∀ x ∈ q' ++ push, x ∈ u := by
          intro x hx
          rcases List.mem_append.mp hx with h | h
          · exact hqu x (List.mem_cons_of_mem c h)
          · rw [hpush, List.mem_filter] at h
            exact hgu c x h.1
        have hinv' : ∀ v ∈ vis ++ [c], ∀ w, stepRel placed v w →
            w ∈ vis ++ [c] ∨ w ∈ q' ++ push := by
          intro v hv w hw
          rcases List.mem_append.mp hv with h | h
          · rcases hinv v h w hw with h1 | h1
            · exact Or.inl (List.mem_append.mpr (Or.inl h1))
            · rcases List.mem_cons.mp h1 with rfl | h2
              · exact Or.inl (List.mem_append.mpr (Or.inr (List.mem_singleton.mpr rfl)))
              · exact Or.inr (List.mem_append.mpr (Or.inl h2))
          · rw [List.mem_singleton] at h
            subst h
            by_cases hwv : w ∈ vis ++ [v]
            · exact Or.inl hwv
            · refine Or.inr (List.mem_append.mpr (Or.inr ?_))
              rw [hpush, List.mem_filter]
              exact ⟨hw, by simpa using hwv⟩
        have hlenvis : (vis ++ [c]).length = vis.length + 1 := by
          rw [List.length_append, List.length_singleton]
        have hDbound : vis.length + 1 ≤ u.dedup.length := by
          have := length_le_dedup_of_nodup_subset (vis ++ [c]) u hvnd' hvu'
          omega
        have hpushlen : push.length ≤ k := by
          calc push.length ≤ (groupOf placed c).length := List.length_filter_le _ _
            _ ≤ k := hk c
        have hfuel' : (k + 1) * (u.dedup.length - (vis ++ [c]).length) +
            (q' ++ push).length < f := by
          rw [hlenvis, List.length_append]
          rw [List.length_cons] at hfuel
          have hsplit : u.dedup.length - vis.length =
              (u.dedup.length - (vis.length + 1)) + 1 := by omega
          rw [hsplit, Nat.mul_add, Nat.mul_one] at hfuel
          omega
        obtain ⟨hA, hB, hC⟩ := ih (q' ++ push) (vis ++ [c]) hqu' hvu' hvnd' hinv' hfuel'
        refine ⟨?_, ?_, hC⟩
        · intro x hx
          exact hA x (List.mem_append.mpr (Or.inl hx))
        · intro x hx
          rcases List.mem_cons.mp hx with rfl | h2
          · exact hA x (List.mem_append.mpr (Or.inr (List.mem_singleton.mpr rfl)))
          · exact hB x (List.mem_append.mpr (Or.inl h2))

/-- The embedded `getConnectedGroup` computes exactly the set of pieces
reachable from `start` through `connectedGroup` links: the reflexive
transitive closure of `stepRel`. -/
theorem mem_getConnectedGroup (placed : PMap) (start x : ℕ) :
    x ∈ getConnectedGroup placed start ↔
      Relation.ReflTransGen (stepRel placed) start x := by
  constructor
  · intro hx
    rcases bfsAux_sound placed [] _ _ _ x hx with h | ⟨s, hs, hrtg⟩
    · exact absurd h (List.not_mem_nil x)
    · rw [List.mem_singleton] at hs
      exact hs ▸ hrtg
  · intro hrtg
    have hk : ∀ c, (groupOf placed c).length ≤ (allGroupIds placed).length :=
      length_groupOf_le placed
    have hgu : ∀ c x, x ∈ groupOf placed c → x ∈ start :: allGroupIds placed :=
      fun c x hx => List.mem_cons_of_mem start (mem_allGroupIds_of_mem_groupOf placed c x hx)
    have hfuel : ((allGroupIds placed).length + 1) *
        ((start :: allGroupIds placed).dedup.length - ([] : List ℕ).length) +
        ([start] : List ℕ).length < bfsFuel placed start := by
      rw [bfsFuel]
      simp
    obtain ⟨_, hB, hC⟩ := bfsAux_complete placed ((allGroupIds placed).length) hk
      (start :: allGroupIds placed) hgu (bfsFuel placed start) [start] []
      (by intro x hx; rw [List.mem_singleton] at hx; exact hx ▸ List.mem_cons_self _ _)
      (by intro x hx; exact absurd hx (List.not_mem_nil x))
      List.nodup_nil
      (by intro v hv; exact absurd hv (List.not_mem_nil v))
      hfuel
    have hstart : start ∈ getConnectedGroup placed start :=
      hB start (List.mem_singleton.mpr rfl)
    clear hB
    induction hrtg with
    | refl => exact hstart
    | tail h1 h2 ih => exact hC _ ih _ h2

theorem getConnectedGroup_nodup (placed : PMap) (start : ℕ) :
    (getConnectedGroup placed start).Nodup :=
  bfsAux_nodup placed [] _ _ _ List.nodup_nil

theorem getConnectedGroup_self_mem (placed : PMap) (start : ℕ) :
    start ∈ getConnectedGroup placed start :=
  (mem_getConnectedGroup placed start start).mpr Relation.ReflTransGen.refl

/-- An id reachable from `start` is `start` itself or belongs to some
stored `connectedGroup`. -/
theorem mem_getConnectedGroup_cases (placed : PMap) (start x : ℕ)
    (hx : x ∈ getConnectedGroup placed start) :
    x = start ∨ ∃ c, x ∈ groupOf placed c := by
  rw [mem_getConnectedGroup] at hx
  induction hx with
  | refl => exact Or.inl rfl
  | tail _ h2 _ => exact Or.inr ⟨_, h2⟩

theorem objGet_writeEach_not_mem (m0 : PMap) (l : List ℕ) (f : ℕ → Option Placed)
    (i : ℕ) (hi : i ∉ l) : objGet (writeEach m0 l f) i = objGet m0 i := by
  induction l generalizing m0 with
  | nil => rfl
  | cons a t ih =>
    have hia : i ≠ a := fun h => hi (h ▸ List.mem_cons_self a t)
    have hit : i ∉ t := fun h => hi (List.mem_cons_of_mem a h)
    rw [writeEach, List.foldl_cons]
    match hfa : f a with
    | none => exact ih m0 hit
    | some v =>
      have h1 : objGet (writeEach (objSet m0 a v) t f) i = objGet (objSet m0 a v) i :=
        ih (objSet m0 a v) hit
      have h2 : objGet (objSet m0 a v) i = objGet m0 i :=
        objGet_objSet_ne m0 a i v hia
      exact h1.trans h2

theorem objGet_writeEach_stable (m0 : PMap) (l : List ℕ) (f : ℕ → Option Placed)
    (i : ℕ) (v : Placed) (h0 : objGet m0 i = some v)
    (hf : f i = none ∨ f i = some v) :
    objGet (writeEach m0 l f) i = some v := by
  induction l generalizing m0 with
  | nil => exact h0
  | cons a t ih =>
    rw [writeEach, List.foldl_cons]
    by_cases hai : a = i
    · subst hai
      rcases hf with hn | hs
      · rw [hn]
        exact ih m0 h0
      · rw [hs]
        have := objGet_objSet_self m0 a v
        exact ih (objSet m0 a v) this
    · match hfa : f a with
      | none => exact ih m0 h0
      | some w =>
        have : objGet (objSet m0 a w) i = some v := by
          rw [objGet_objSet_ne m0 a i w (fun h => hai h.symm)]
          exact h0
        exact ih (objSet m0 a w) this

theorem objGet_writeEach_mem_some (m0 : PMap) (l : List ℕ) (f : ℕ → Option Placed)
    (i : ℕ) (v : Placed) (hi : i ∈ l) (hf : f i = some v) :
    objGet (writeEach m0 l f) i = some v := by
  induction l generalizing m0 with
  | nil => cases hi
  | cons a t ih =>
    rw [writeEach, List.foldl_cons]
    by_cases hai : a = i
    · subst hai
      rw [hf]
      have h0 := objGet_objSet_self m0 a v
      have := objGet_writeEach_stable (objSet m0 a v) t f a v h0 (Or.inr hf)
      exact this
    · have hit : i ∈ t := by
        rcases List.mem_cons.mp hi with h | h
        · exact absurd h.symm hai
        · exact h
      match hfa : f a with
      | none => exact ih m0 hit
      | some w => exact ih (objSet m0 a w) hit

theorem objGet_writeEach_mem_none (m0 : PMap) (l : List ℕ) (f : ℕ → Option Placed)
    (i : ℕ) (hf : f i = none) :
    objGet (writeEach m0 l f) i = objGet m0 i := by
  induction l generalizing m0 with
  | nil => rfl
  | cons a t ih =>
    rw [writeEach, List.foldl_cons]
    by_cases hai : a = i
    · subst hai
      rw [hf]
      exact ih m0
    · match hfa : f a with
      | none => exact ih m0
      | some w =>
        have h1 : objGet (writeEach (objSet m0 a w) t f) i = objGet (objSet m0 a w) i :=
          ih (objSet m0 a w)
        have h2 : objGet (objSet m0 a w) i = objGet m0 i :=
          objGet_objSet_ne m0 a i w (fun h => hai h.symm)
        exact h1.trans h2

/-- Full case split for a `writeEach` lookup. -/
theorem objGet_writeEach_cases (m0 : PMap) (l : List ℕ) (f : ℕ → Option Placed)
    (i : ℕ) :
    objGet (writeEach m0 l f) i = objGet m0 i ∨
      (i ∈ l ∧ objGet (writeEach m0 l f) i = f i) := by
  by_cases hi : i ∈ l
  · match hfi : f i with
    | none => exact Or.inl (objGet_writeEach_mem_none m0 l f i hfi)
    | some v => exact Or.inr ⟨hi, objGet_writeEach_mem_some m0 l f i v hi hfi⟩
  · exact Or.inl (objGet_writeEach_not_mem m0 l f i hi)

theorem mem_objSet (m : List (ℕ × Placed)) (k : ℕ) (v : Placed)
    (e : ℕ × Placed) (he : e ∈ objSet m k v) : e ∈ m ∨ e = (k, v) := by
  rw [objSet] at he
  split at he
  · rw [List.mem_map] at he
    obtain ⟨a, ha, hae⟩ := he
    by_cases hak : a.1 = k
    · rw [if_pos hak] at hae
      exact Or.inr hae.symm
    · rw [if_neg hak] at hae
      exact Or.inl (hae ▸ ha)
  · rcases List.mem_append.mp he with h | h
    · exact Or.inl h
    · rw [List.mem_singleton] at h
      exact Or.inr h

theorem mem_writeEach (m0 : PMap) (l : List ℕ) (f : ℕ → Option Placed)
    (e : ℕ × Placed) (he : e ∈ writeEach m0 l f) :
    e ∈ m0 ∨ (e.1 ∈ l ∧ f e.1 = some e.2) := by
  induction l generalizing m0 with
  | nil => exact Or.inl he
  | cons a t ih =>
    rw [writeEach, List.foldl_cons] at he
    match hfa : f a with
    | none =>
      rw [hfa] at he
      rcases ih m0 he with h | ⟨h1, h2⟩
      · exact Or.inl h
      · exact Or.inr ⟨List.mem_cons_of_mem a h1, h2⟩
    | some v =>
      rw [hfa] at he
      rcases ih (objSet m0 a v) he with h | ⟨h1, h2⟩
      · rcases mem_objSet m0 a v e h with h' | h'
        · exact Or.inl h'
        · refine Or.inr ⟨?_, ?_⟩
          · rw [h']
            exact List.mem_cons_self a t
          · rw [h']
            exact hfa
      · exact Or.inr ⟨List.mem_cons_of_mem a h1, h2⟩

/-- Lookup after the `forEach`-delete loop of `handleReturnToPool`. -/
theorem objGet_foldl_objDel (grp : List ℕ) (m : PMap) (i : ℕ) :
    objGet (grp.foldl (fun m j => objDel m j) m) i =
      if i ∈ grp then none else objGet m i := by
  induction grp generalizing m with
  | nil => simp
  | cons a t ih =>
    rw [List.foldl_cons, ih]
    by_cases hit : i ∈ t
    · rw [if_pos hit, if_pos (List.mem_cons_of_mem a hit)]
    · rw [if_neg hit, objGet_objDel]
      by_cases hia : i = a
      · rw [if_pos hia, if_pos (hia ▸ List.mem_cons_self a t)]
      · rw [if_neg hia, if_neg (by
          intro h
          rcases List.mem_cons.mp h with h | h
          · exact hia h
          · exact hit h)]

theorem mem_objDel (m : List (ℕ × Placed)) (k : ℕ)
    (e : ℕ × Placed) (he : e ∈ objDel m k) : e ∈ m :=
  List.mem_of_mem_filter he

theorem mem_foldl_objDel (grp : List ℕ) (m : PMap) (e : ℕ × Placed)
    (he : e ∈ grp.foldl (fun m j => objDel m j) m) : e ∈ m := by
  induction grp generalizing m with
  | nil => exact he
  | cons a t ih =>
    rw [List.foldl_cons] at he
    exact mem_objDel m a e (ih (objDel m a) he)

theorem findPiece_isSome_iff (pieces : List PieceS) (i : ℕ) :
    (findPiece pieces i).isSome ↔ i ∈ idsOf pieces := by
  rw [findPiece, List.find?_isSome]
  constructor
  · rintro ⟨p, hp, hpi⟩
    rw [decide_eq_true_iff] at hpi
    rw [idsOf, List.mem_map]
    exact ⟨p, hp, hpi⟩
  · intro h
    rw [idsOf, List.mem_map] at h
    obtain ⟨p, hp, hpi⟩ := h
    exact ⟨p, hp, by simp [hpi]⟩

theorem findPiece_mem (pieces : List PieceS) (i : ℕ) (p : PieceS)
    (h : findPiece pieces i = some p) : p ∈ pieces ∧ p.id = i := by
  refine ⟨List.mem_of_find?_eq_some h, ?_⟩
  have := List.find?_some h
  rwa [decide_eq_true_iff] at this

/-- C7 counterexample: two supported grid configurations (8 pieces on a
100×100 image; 18 pieces on a 1×1 image) have minimum piece dimensions 50
and 1/3, yet neighbor resolution applies the same tolerance to both — the
tolerance is not proportional to (indeed, not a function of) the minimum
piece dimension, so the claim is false. -/
theorem tolerance_not_relative_counterexample :
    toleranceUsedT 2 2 100 100 = toleranceUsedT 3 3 1 1 ∧
    minPieceDimT 2 2 100 100 = 50 ∧
    minPieceDimT 3 3 1 1 = 1/3 ∧
    ¬ ∃ r : ℚ, toleranceUsedT 2 2 100 100 = r * minPieceDimT 2 2 100 100 ∧
               toleranceUsedT 3 3 1 1 = r * minPieceDimT 3 3 1 1 := by
  have h1 : minPieceDimT 2 2 100 100 = 50 := by decide
  have h2 : minPieceDimT 3 3 1 1 = 1/3 := by decide
  refine ⟨rfl, h1, h2, ?_⟩
  rintro ⟨r, hr1, hr2⟩
  rw [h1] at hr1
  rw [h2] at hr2
  rw [toleranceUsedT, toleranceT] at hr1 hr2
  have : r = 1/500 := by linarith
  rw [this] at hr2
  norm_num at hr2

/-- C7 amended: the vertex-coincidence tolerance is an absolute constant —
`0.1` in the triangle variant and `1.0` in the `puzzle-random` variant —
identical for every grid configuration and image size (it is exactly the
constant the coincidence filter of `setupNeighbors` applies), not chosen
relative to the minimum piece dimension of the generated partition. -/
theorem tolerance_is_absolute_constant (rows cols rows' cols' : ℕ) (w h w' h' : ℚ) :
    toleranceUsedT rows cols w h = toleranceUsedT rows' cols' w' h' ∧
    toleranceUsedR rows cols w h = toleranceUsedR rows' cols' w' h' ∧
    toleranceUsedT rows cols w h = 1/10 ∧
    toleranceUsedR rows cols w h = 1 ∧
    (∀ A B : List Pt, sharedPointsT A B =
      A.filter (fun p1 => B.any (fun p2 => ptClose p1 p2 (toleranceUsedT rows cols w h)))) :=
  ⟨rfl, rfl, rfl, rfl, fun _ _ => rfl⟩

/-- C8: in the exact-slot variant, a drop onto an already-occupied slot is
rejected: the piece is not placed, the occupied alert is the raised signal,
and the grid and the pool are returned unchanged. -/
theorem occupied_drop_rejected (pieces : List PieceB) (grid : List (Option ℕ))
    (pool : List ℕ) (activeId idx occupant : ℕ) (piece : PieceB)
    (hfind : findPieceB pieces activeId = some piece)
    (hocc : grid[idx]? = some (some occupant)) :
    handleDragEndB pieces grid pool activeId (OverB.slot idx) =
      (grid, pool, SignalB.occupied) := by
  rw [handleDragEndB, hfind, hocc]
  exact if_pos (by simp)

/-- Witness for C8: dropping piece 0 onto slot 0, which holds piece 1,
leaves the state unchanged and raises the occupied signal. -/
theorem occupied_drop_rejected_witness :
    handleDragEndB [⟨0, 0⟩, ⟨1, 1⟩] [some 1, none] [0] 0 (OverB.slot 0) =
      ([some 1, none], [0], SignalB.occupied) :=
  occupied_drop_rejected [⟨0, 0⟩, ⟨1, 1⟩] [some 1, none] [0] 0 0 1 ⟨0, 0⟩ rfl rfl

/-- C9 counterexample: 13 is not a valid piece count for either variant,
yet both configuration lookups succeed with a silently substituted
configuration (the triangle variant falls back to 4×4; `puzzle-random`
picks the closest listed entry, 1×3 for 12 pieces) instead of failing with
a `ConfigurationError` — no error path exists in these functions. -/
theorem unsupported_count_succeeds_counterexample :
    (∀ e ∈ pieceDimsTable, e.1 ≠ 13) ∧ getPieceDimensions 13 = (4, 4) ∧
    (∀ e ∈ gridMapR, e.1 ≠ 13) ∧ getGridForPieceCount 13 = (1, 3) := by
  decide

/-- Argmin property of the fallback fold of `getGridForPieceCount`. -/
theorem foldl_closest_spec (n : ℕ) (l : List (ℕ × ℕ × ℕ)) (c0 : ℕ × ℕ × ℕ) :
    (l.foldl (fun c g => if natDiff n g.1 < natDiff n c.1 then g else c) c0 = c0 ∨
     l.foldl (fun c g => if natDiff n g.1 < natDiff n c.1 then g else c) c0 ∈ l) ∧
    natDiff n (l.foldl (fun c g => if natDiff n g.1 < natDiff n c.1 then g else c) c0).1
      ≤ natDiff n c0.1 ∧
    (∀ g ∈ l,
      natDiff n (l.foldl (fun c g => if natDiff n g.1 < natDiff n c.1 then g else c) c0).1
        ≤ natDiff n g.1) := by
  induction l generalizing c0 with
  | nil => exact ⟨Or.inl rfl, le_refl _, fun g hg => absurd hg (List.not_mem_nil g)⟩
  | cons a t ih =>
    rw [List.foldl_cons]
    set c1 := if natDiff n a.1 < natDiff n c0.1 then a else c0 with hc1
    obtain ⟨hmem, hle, hall⟩ := ih c1
    have hc1le : natDiff n c1.1 ≤ natDiff n c0.1 ∧ natDiff n c1.1 ≤ natDiff n a.1 := by
      rw [hc1]
      split
      · next hlt => exact ⟨le_of_lt hlt, le_refl _⟩
      · next hlt => exact ⟨le_refl _, le_of_not_lt hlt⟩
    refine ⟨?_, le_trans hle hc1le.1, ?_⟩
    · rcases hmem with h | h
      · rw [h, hc1]
        split
        · exact Or.inr (List.mem_cons_self a t)
        · exact Or.inl rfl
      · exact Or.inr (List.mem_cons_of_mem a h)
    · intro g hg
      rcases List.mem_cons.mp hg with rfl | hg'
      · exact le_trans hle hc1le.2
      · exact hall g hg'

/-- C9 amended: the triangular-strategy variants disagree on an
unsupported piece count. `createTrianglePuzzle` of `part_003` fails with an
error naming the requested count and the full sorted list of valid
alternatives, exactly as claimed; but the `getPieceDimensions` table of
`puzzle-triangle` silently substitutes the 4×4 default and
`getGridForPieceCount` of `puzzle-random` silently substitutes a closest
listed configuration (of minimal absolute piece-count difference), so
generation does not fail there. -/
theorem unsupported_count_behavior (n : ℕ)
    (h1 : ∀ e ∈ pieceDimsTable, e.1 ≠ n)
    (h2 : ∀ e ∈ gridMapR, e.1 ≠ n)
    (h3 : objGet pieceConfigs3 n = none) :
    createTrianglePuzzleConfig n = Except.error (n, availablePieceCounts) ∧
    availablePieceCounts = [4, 6, 8, 9, 12, 15, 16, 18, 20, 24, 25, 28, 30,
      32, 35, 36, 40, 42, 45, 48, 50] ∧
    getPieceDimensions n = (4, 4) ∧
    ∃ g ∈ gridMapR, getGridForPieceCount n = (g.2.1, g.2.2) ∧
      ∀ g' ∈ gridMapR, natDiff n g.1 ≤ natDiff n g'.1 := by
  have hf1 : pieceDimsTable.find? (fun e => e.1 = n) = none := by
    rw [List.find?_eq_none]
    intro e he
    simpa using h1 e he
  have hf2 : gridMapR.find? (fun e => e.1 = n) = none := by
    rw [List.find?_eq_none]
    intro e he
    simpa using h2 e he
  refine ⟨?_, by decide, ?_, ?_⟩
  · rw [createTrianglePuzzleConfig, h3]
  · rw [getPieceDimensions, hf1]
  · rw [getGridForPieceCount, hf2]
    obtain ⟨hmem, _, hall⟩ := foldl_closest_spec n gridMapR gridMapR.headI
    refine ⟨_, ?_, rfl, hall⟩
    rcases hmem with h | h
    · rw [h]
      decide
    · exact h

/-- Witness for C9 amended, at the unsupported piece count 13. -/
theorem unsupported_count_behavior_witness :
    createTrianglePuzzleConfig 13 =
      Except.error (13, availablePieceCounts) ∧
    availablePieceCounts = [4, 6, 8, 9, 12, 15, 16, 18, 20, 24, 25, 28, 30,
      32, 35, 36, 40, 42, 45, 48, 50] ∧
    getPieceDimensions 13 = (4, 4) ∧
    ∃ g ∈ gridMapR, getGridForPieceCount 13 = (g.2.1, g.2.2) ∧
      ∀ g' ∈ gridMapR, natDiff 13 g.1 ≤ natDiff 13 g'.1 :=
  unsupported_count_behavior 13 (by decide) (by decide) (by decide)

theorem findPieceB_of_mem_nodup (pieces : List PieceB) (p : PieceB)
    (hnd : (pieces.map (fun q => q.id)).Nodup) (hp : p ∈ pieces) :
    findPieceB pieces p.id = some p := by
  induction pieces with
  | nil => cases hp
  | cons q t ih =>
    rw [List.map_cons, List.nodup_cons] at hnd
    rcases List.mem_cons.mp hp with rfl | hpt
    · rw [findPieceB, List.find?_cons_of_pos _ (by simp)]
    · have hne : ¬ (q.id = p.id) := by
        intro h
        exact hnd.1 (h ▸ List.mem_map.mpr ⟨p, hpt, rfl⟩)
      rw [findPieceB, List.find?_cons_of_neg _ (by simpa using hne)]
      exact ih hnd.2 hpt

theorem gridOK_set (pieces : List PieceB) (grid : List (Option ℕ))
    (idx pid : ℕ) (p : PieceB) (hOK : gridOK pieces grid)
    (hfind : findPieceB pieces pid = some p) (hcorr : p.correctIndex = idx) :
    gridOK pieces (grid.set idx (some pid)) := by
  intro idx' id' h
  rw [List.getElem?_set] at h
  split at h
  · next heq =>
    split at h
    · rw [Option.some_inj, Option.some_inj] at h
      exact ⟨p, h ▸ hfind, heq ▸ hcorr⟩
    · cases h
  · exact hOK idx' id' h

theorem gridOK_set_none (pieces : List PieceB) (grid : List (Option ℕ))
    (idx : ℕ) (hOK : gridOK pieces grid) :
    gridOK pieces (grid.set idx none) := by
  intro idx' id' h
  rw [List.getElem?_set] at h
  split at h
  · split at h
    · cases h
    · cases h
  · exact hOK idx' id' h

theorem gridOK_replicate (pieces : List PieceB) (n : ℕ) :
    gridOK pieces (List.replicate n none) := by
  intro idx id h
  rw [List.getElem?_replicate] at h
  split at h
  · cases h
  · cases h

/-- The rejection logic of `handleDragEnd` keeps the correct-slot
invariant: the only grid writes are a placement at the piece's own
`correctIndex` and a removal. -/
theorem gridOK_handleDragEndB (pieces : List PieceB) (grid : List (Option ℕ))
    (pool : List ℕ) (activeId : ℕ) (over : OverB)
    (hOK : gridOK pieces grid) :
    gridOK pieces (handleDragEndB pieces grid pool activeId over).1 := by
  match over with
  | OverB.offTarget => exact hOK
  | OverB.slot idx =>
    match hf : findPieceB pieces activeId with
    | none =>
      have hstep : handleDragEndB pieces grid pool activeId (OverB.slot idx) =
          (grid, pool, SignalB.ignored) := by
        rw [handleDragEndB, hf]
      rw [hstep]
      exact hOK
    | some piece =>
      match hg : grid[idx]? with
      | none =>
        have hstep : handleDragEndB pieces grid pool activeId (OverB.slot idx) =
            (grid, pool, SignalB.occupied) := by
          rw [handleDragEndB, hf, hg]
        rw [hstep]
        exact hOK
      | some cell =>
        by_cases hcell : cell ≠ none
        · have hstep : handleDragEndB pieces grid pool activeId (OverB.slot idx) =
              (grid, pool, SignalB.occupied) := by
            rw [handleDragEndB, hf, hg]
            exact if_pos hcell
          rw [hstep]
          exact hOK
        · by_cases hci : piece.correctIndex ≠ idx
          · have hstep : handleDragEndB pieces grid pool activeId (OverB.slot idx) =
                (grid, pool, SignalB.wrongPos) := by
              rw [handleDragEndB, hf, hg]
              exact (if_neg hcell).trans (if_pos hci)
            rw [hstep]
            exact hOK
          · have hstep : handleDragEndB pieces grid pool activeId (OverB.slot idx) =
                (grid.set idx (some activeId),
                 pool.filter (fun i => decide (¬ i = activeId)), SignalB.placedOk) := by
              rw [handleDragEndB, hf, hg]
              exact (if_neg hcell).trans (if_neg hci)
            rw [hstep]
            push_neg at hci
            exact gridOK_set pieces grid idx activeId piece hOK hf hci
  | OverB.pool =>
    match hf : findPieceB pieces activeId with
    | none =>
      have hstep : handleDragEndB pieces grid pool activeId OverB.pool =
          (grid, pool, SignalB.ignored) := by
        rw [handleDragEndB, hf]
      rw [hstep]
      exact hOK
    | some piece =>
      match hidx : grid.findIdx? (fun c => c = some activeId) with
      | none =>
        have hstep : handleDragEndB pieces grid pool activeId OverB.pool =
            (grid, pool, SignalB.ignored) := by
          rw [handleDragEndB, hf, hidx]
        rw [hstep]
        exact hOK
      | some gIdx =>
        have hstep : handleDragEndB pieces grid pool activeId OverB.pool =
            (grid.set gIdx none, pool ++ [activeId], SignalB.returnedToPool) := by
          rw [handleDragEndB, hf, hidx]
        rw [hstep]
        exact gridOK_set_none pieces grid gIdx hOK

theorem gridOK_prefill (pieces : List PieceB) (chosen : List PieceB)
    (g0 : List (Option ℕ)) (hnd : (pieces.map (fun q => q.id)).Nodup)
    (hch : ∀ p ∈ chosen, p ∈ pieces) (h0 : gridOK pieces g0) :
    gridOK pieces
      (chosen.foldl (fun g p => g.set p.correctIndex (some p.id)) g0) := by
  induction chosen generalizing g0 with
  | nil => exact h0
  | cons p t ih =>
    rw [List.foldl_cons]
    have hp : p ∈ pieces := hch p (List.mem_cons_self p t)
    exact ih (g0.set p.correctIndex (some p.id))
      (fun q hq => hch q (List.mem_cons_of_mem p hq))
      (gridOK_set pieces g0 p.correctIndex p.id p h0
        (findPieceB_of_mem_nodup pieces p hnd hp) rfl)

theorem everyIdxFrom_of_gridOK (pieces : List PieceB) :
    ∀ (grid : List (Option ℕ)) (i : ℕ),
    (∀ idx id, grid[idx]? = some (some id) →
      ∃ p, findPieceB pieces id = some p ∧ p.correctIndex = i + idx) →
    ¬ (none ∈ grid) → everyIdxFrom pieces i grid = true := by
  intro grid
  induction grid with
  | nil => intro i _ _; rfl
  | cons c t ih =>
    intro i hOK hnone
    match c with
    | none => exact absurd (List.mem_cons_self none t) hnone
    | some id =>
      have h1 : everyIdxFrom pieces i (some id :: t) =
          (decide ((findPieceB pieces id).map (fun p => p.correctIndex) = some i) &&
           everyIdxFrom pieces (i + 1) t) := rfl
      rw [h1, Bool.and_eq_true]
      constructor
      · obtain ⟨p, hp, hpc⟩ := hOK 0 id (by simp)
        rw [decide_eq_true_iff, hp, Option.map_some']
        rw [Nat.add_zero] at hpc
        rw [hpc]
      · apply ih (i + 1)
        · intro idx id' h
          obtain ⟨p, hp, hpc⟩ := hOK (idx + 1) id' (by simpa using h)
          refine ⟨p, hp, ?_⟩
          omega
        · intro h
          exact hnone (List.mem_cons_of_mem _ h)

/-- C10: at every reachable state of the exact-slot variant, every piece
present in the grid occupies exactly its `correctIndex` slot (drops on a
wrong empty slot are rejected with the wrong-position alert and no state
change, drops on occupied slots with the occupied alert), and consequently
the per-slot correctness test of the solved check succeeds whenever the
pool is empty and the grid is full — it can never find a misplaced piece. -/
theorem grid_pieces_always_correct (pieces : List PieceB) (total : ℕ)
    (s : BState) (hs : ReachB pieces total s)
    (hnd : (pieces.map (fun q => q.id)).Nodup) :
    gridOK pieces s.grid ∧
    (∀ piece : PieceB, ∀ idx occupant : ℕ,
      findPieceB pieces piece.id = some piece → s.grid[idx]? = some (some occupant) →
      handleDragEndB pieces s.grid s.pool piece.id (OverB.slot idx) =
        (s.grid, s.pool, SignalB.occupied)) ∧
    (∀ piece : PieceB, ∀ idx : ℕ,
      findPieceB pieces piece.id = some piece → s.grid[idx]? = some none →
      piece.correctIndex ≠ idx →
      handleDragEndB pieces s.grid s.pool piece.id (OverB.slot idx) =
        (s.grid, s.pool, SignalB.wrongPos)) ∧
    (s.pool = [] → ¬ (none ∈ s.grid) →
      solvedCheckB pieces s.grid s.pool = true) := by
  have hOK : gridOK pieces s.grid := by
    induction hs with
    | initEmpty ord hperm => exact gridOK_replicate pieces total
    | initPrefilled chosen rest hch =>
      exact gridOK_prefill pieces chosen _ hnd hch (gridOK_replicate pieces total)
    | step s activeId over hs ih => exact gridOK_handleDragEndB pieces s.grid s.pool activeId over ih
  refine ⟨hOK, ?_, ?_, ?_⟩
  · intro piece idx occupant hfind hocc
    exact occupied_drop_rejected pieces s.grid s.pool piece.id idx occupant piece hfind hocc
  · intro piece idx hfind hempty hwrong
    rw [handleDragEndB, hfind, hempty]
    exact (if_neg (by simp)).trans (if_pos hwrong)
  · intro hpool hfull
    rw [solvedCheckB, if_pos ⟨by rw [hpool]; rfl, hfull⟩]
    apply everyIdxFrom_of_gridOK pieces s.grid 0 _ hfull
    intro idx id h
    obtain ⟨p, hp, hpc⟩ := hOK idx id h
    exact ⟨p, hp, by omega⟩

/-- Witness for C10 at a concrete reachable state: initial empty grid with
two pieces, then piece 0 placed on its own slot 0. -/
theorem grid_pieces_always_correct_witness :
    gridOK [⟨0, 0⟩, ⟨1, 1⟩]
      (handleDragEndB [⟨0, 0⟩, ⟨1, 1⟩] (List.replicate 2 none) [0, 1] 0 (OverB.slot 0)).1 ∧
    (∀ piece : PieceB, ∀ idx occupant : ℕ,
      findPieceB [⟨0, 0⟩, ⟨1, 1⟩] piece.id = some piece →
      (handleDragEndB [⟨0, 0⟩, ⟨1, 1⟩] (List.replicate 2 none) [0, 1] 0
        (OverB.slot 0)).1[idx]? = some (some occupant) →
      handleDragEndB [⟨0, 0⟩, ⟨1, 1⟩]
        (handleDragEndB [⟨0, 0⟩, ⟨1, 1⟩] (List.replicate 2 none) [0, 1] 0 (OverB.slot 0)).1
        (handleDragEndB [⟨0, 0⟩, ⟨1, 1⟩] (List.replicate 2 none) [0, 1] 0 (OverB.slot 0)).2.1
        piece.id (OverB.slot idx) =
        ((handleDragEndB [⟨0, 0⟩, ⟨1, 1⟩] (List.replicate 2 none) [0, 1] 0 (OverB.slot 0)).1,
         (handleDragEndB [⟨0, 0⟩, ⟨1, 1⟩] (List.replicate 2 none) [0, 1] 0 (OverB.slot 0)).2.1,
         SignalB.occupied)) ∧
    (∀ piece : PieceB, ∀ idx : ℕ,
      findPieceB [⟨0, 0⟩, ⟨1, 1⟩] piece.id = some piece →
      (handleDragEndB [⟨0, 0⟩, ⟨1, 1⟩] (List.replicate 2 none) [0, 1] 0
        (OverB.slot 0)).1[idx]? = some none →
      piece.correctIndex ≠ idx →
      handleDragEndB [⟨0, 0⟩, ⟨1, 1⟩]
        (handleDragEndB [⟨0, 0⟩, ⟨1, 1⟩] (List.replicate 2 none) [0, 1] 0 (OverB.slot 0)).1
        (handleDragEndB [⟨0, 0⟩, ⟨1, 1⟩] (List.replicate 2 none) [0, 1] 0 (OverB.slot 0)).2.1
        piece.id (OverB.slot idx) =
        ((handleDragEndB [⟨0, 0⟩, ⟨1, 1⟩] (List.replicate 2 none) [0, 1] 0 (OverB.slot 0)).1,
         (handleDragEndB [⟨0, 0⟩, ⟨1, 1⟩] (List.replicate 2 none) [0, 1] 0 (OverB.slot 0)).2.1,
         SignalB.wrongPos)) ∧
    ((handleDragEndB [⟨0, 0⟩, ⟨1, 1⟩] (List.replicate 2 none) [0, 1] 0 (OverB.slot 0)).2.1 = [] →
      ¬ (none ∈ (handleDragEndB [⟨0, 0⟩, ⟨1, 1⟩] (List.replicate 2 none) [0, 1] 0 (OverB.slot 0)).1) →
      solvedCheckB [⟨0, 0⟩, ⟨1, 1⟩]
        (handleDragEndB [⟨0, 0⟩, ⟨1, 1⟩] (List.replicate 2 none) [0, 1] 0 (OverB.slot 0)).1
        (handleDragEndB [⟨0, 0⟩, ⟨1, 1⟩] (List.replicate 2 none) [0, 1] 0 (OverB.slot 0)).2.1 = true) :=
  grid_pieces_always_correct [⟨0, 0⟩, ⟨1, 1⟩] 2 _
    (ReachB.step ⟨List.replicate 2 none, [0, 1]⟩ 0 (OverB.slot 0)
      (ReachB.initEmpty [0, 1] (by decide)))
    (by decide)

/-! ## C6 -/

theorem objGet_some_mem {K V : Type} [DecidableEq K] (m : List (K × V))
    (k : K) (v : V) (h : objGet m k = some v) : (k, v) ∈ m := by
  rw [objGet] at h
  match hf : m.find? (fun e => e.1 = k) with
  | none => rw [hf] at h; cases h
  | some e =>
    rw [hf] at h
    rw [Option.map_some', Option.some_inj] at h
    have hmem := List.mem_of_find?_eq_some hf
    have hkey := List.find?_some hf
    rw [decide_eq_true_iff] at hkey
    have : e = (k, v) := by
      cases e
      simp only [Prod.mk.injEq]
      exact ⟨hkey, h⟩
    exact this ▸ hmem

theorem records_iff_recordsB {K : Type} [DecidableEq K]
    (nbrs : List (TId × List (K × TId))) (a : TId) (k : K) (b : TId) :
    records nbrs a k b ↔ recordsB nbrs a k b = true := by
  rw [records, recordsB]
  match h : objGet nbrs a with
  | none =>
    constructor
    · rintro ⟨m, hm, _⟩
      cases hm
    · intro hfalse
      cases hfalse
  | some m =>
    constructor
    · rintro ⟨m', hm', hk⟩
      rw [Option.some_inj] at hm'
      exact decide_eq_true (hm' ▸ hk)
    · intro hd
      exact ⟨m, rfl, of_decide_eq_true hd⟩

/-- A successful `symKeyCheck` gives same-key symmetry of the neighbor
relation. -/
theorem records_symm_same_key {K : Type} [DecidableEq K]
    (nbrs : List (TId × List (K × TId))) (hchk : symKeyCheck nbrs = true) :
    ∀ a b k, records nbrs a k b → records nbrs b k a := by
  rintro a b k ⟨ma, hma, hk⟩
  have hent : (a, ma) ∈ nbrs := objGet_some_mem nbrs a ma hma
  have hkb : (k, b) ∈ ma := objGet_some_mem ma k b hk
  rw [symKeyCheck, List.all_eq_true] at hchk
  have h1 := hchk (a, ma) hent
  rw [List.all_eq_true] at h1
  have h2 := h1 (k, b) hkb
  match hb : objGet nbrs b with
  | none => rw [hb] at h2; cases h2
  | some mb =>
    rw [hb] at h2
    exact ⟨mb, hb, of_decide_eq_true h2⟩

/-- A successful `symRelCheck` gives some-key symmetry of the neighbor
relation. -/
theorem records_symm_some_key {K : Type} [DecidableEq K]
    (nbrs : List (TId × List (K × TId))) (hchk : symRelCheck nbrs = true) :
    ∀ a b, (∃ k, records nbrs a k b) → ∃ k2, records nbrs b k2 a := by
  rintro a b ⟨k, ma, hma, hk⟩
  have hent : (a, ma) ∈ nbrs := objGet_some_mem nbrs a ma hma
  have hkb : (k, b) ∈ ma := objGet_some_mem ma k b hk
  rw [symRelCheck, List.all_eq_true] at hchk
  have h1 := hchk (a, ma) hent
  rw [List.all_eq_true] at h1
  have h2 := h1 (k, b) hkb
  match hb : objGet nbrs b with
  | none => rw [hb] at h2; cases h2
  | some mb =>
    rw [hb] at h2
    rw [List.any_eq_true] at h2
    obtain ⟨e2, _, he2⟩ := h2
    exact ⟨e2.1, mb, hb, of_decide_eq_true he2⟩

/-- C6 counterexample: in the triangle variant's generated 2×1 partition,
piece `(0,0,1)` (polygon `[(0,0),(2,1),(0,1)]`) records piece `(1,0,0)`
(polygon `[(0,1),(2,1),(0,2)]`) under the key built from the shared points
in ITS polygon order, `"2,1-0,1"`; the reverse entry uses the other
piece's polygon order, `"0,1-2,1"`, so `(1,0,0)` does NOT record
`(0,0,1)` under the same key — the keys are not derived identically from
the two perspectives (this variant neither sorts nor rounds them). -/
theorem neighbor_key_asymmetry_counterexample :
    records nbrsT21 (0, 0, 1) (⟨2, 1⟩, ⟨0, 1⟩) (1, 0, 0) ∧
    ¬ records nbrsT21 (1, 0, 0) (⟨2, 1⟩, ⟨0, 1⟩) (0, 0, 1) ∧
    records nbrsT21 (1, 0, 0) (⟨0, 1⟩, ⟨2, 1⟩) (0, 0, 1) := by
  refine ⟨?_, ?_, ?_⟩
  · rw [records_iff_recordsB]
    decide
  · rw [records_iff_recordsB]
    decide
  · rw [records_iff_recordsB]
    decide

/-- C6 amended: after neighbor resolution the neighbor relation is
symmetric, but the common-key part of the claim only holds in the
`puzzle-random` variant (whose `setupNeighbors` sorts the shared points
and rounds the coordinates, writing both directions with the identical
key).  In the triangle variant each side keys the edge by the shared
points in its own polygon's order, so A records B iff B records A but
possibly under a different key.  Verified on the generated 2×2 triangle
partition and the generated 1×1 `puzzle-random` partition. -/
theorem neighbor_symmetry_amended :
    (∀ a b, (∃ k, records nbrsT22 a k b) → ∃ k2, records nbrsT22 b k2 a) ∧
    (∀ a b k, records nbrsR22 a k b → records nbrsR22 b k a) :=
  ⟨records_symm_some_key nbrsT22 (by decide),
   records_symm_same_key nbrsR22 (by decide)⟩

/-- Witness for C6 amended at concrete pieces: the two triangles of cell
(0,0) of the 2×2 triangle partition, and two fan triangles of cell (0,0)
of the 2×2 `puzzle-random` partition under their common key. -/
theorem neighbor_symmetry_amended_witness :
    (∃ k2, records nbrsT22 (0, 0, 1) k2 (0, 0, 0)) ∧
    records nbrsR22 (0, 0, 1) ((500, 500), (1000, 0)) (0, 0, 0) :=
  ⟨neighbor_symmetry_amended.1 (0, 0, 0) (0, 0, 1)
      ⟨(⟨0, 0⟩, ⟨1, 1⟩), (records_iff_recordsB nbrsT22 (0, 0, 0) (⟨0, 0⟩, ⟨1, 1⟩)
        (0, 0, 1)).mpr (by decide)⟩,
   neighbor_symmetry_amended.2 (0, 0, 0) (0, 0, 1) ((500, 500), (1000, 0))
     ((records_iff_recordsB nbrsR22 (0, 0, 0) ((500, 500), (1000, 0))
       (0, 0, 1)).mpr (by decide))⟩

/-! ## C4 -/

theorem objGet_eq_of_mem_keys_nodup (m : PMap)
    (hnd : (m.map (fun e => e.1)).Nodup) (i : ℕ) (v : Placed)
    (hmem : (i, v) ∈ m) : objGet m i = some v := by
  induction m with
  | nil => cases hmem
  | cons a t ih =>
    rw [List.map_cons, List.nodup_cons] at hnd
    rcases List.mem_cons.mp hmem with rfl | hmt
    · rw [objGet_cons, if_pos rfl]
    · have hne : ¬ (a.1 = i) := by
        intro h
        exact hnd.1 (h ▸ List.mem_map.mpr ⟨(i, v), hmt, rfl⟩)
      rw [objGet_cons, if_neg hne]
      exact ih hnd.2 hmt

theorem length_le_of_nodup_subset (l1 l2 : List ℕ) (h1 : l1.Nodup)
    (hsub : ∀ x ∈ l1, x ∈ l2) (h2 : l2.Nodup) : l1.length ≤ l2.length := by
  classical
  have e1 : l1.toFinset.card = l1.length := List.toFinset_card_of_nodup h1
  have e2 : l2.toFinset.card = l2.length := List.toFinset_card_of_nodup h2
  have h3 : l1.toFinset ⊆ l2.toFinset := by
    intro a ha
    rw [List.mem_toFinset] at ha ⊢
    exact hsub a ha
  have := Finset.card_le_card h3
  omega

theorem mem_of_nodup_subset_length_ge (l1 l2 : List ℕ) (h1 : l1.Nodup)
    (h2 : l2.Nodup) (hsub : ∀ x ∈ l1, x ∈ l2) (hlen : l2.length ≤ l1.length) :
    ∀ x ∈ l2, x ∈ l1 := by
  classical
  have e1 : l1.toFinset.card = l1.length := List.toFinset_card_of_nodup h1
  have e2 : l2.toFinset.card = l2.length := List.toFinset_card_of_nodup h2
  have h3 : l1.toFinset ⊆ l2.toFinset := by
    intro a ha
    rw [List.mem_toFinset] at ha ⊢
    exact hsub a ha
  have h4 : l1.toFinset = l2.toFinset :=
    Finset.eq_of_subset_of_card_le h3 (by omega)
  intro x hx
  have : x ∈ l2.toFinset := List.mem_toFinset.mpr hx
  rw [← h4, List.mem_toFinset] at this
  exact this

/-- C4 amended: the triangle `page.tsx` variant does implement the
connectivity rule — it reports solved exactly when the pool is empty,
every piece is placed, and every piece is reachable from the first piece
through `connectedGroup` links (the claim's breadth-first traversal).  The
`part_002` and `puzzle-random` variants instead report solved exactly when
the pool is empty and every piece is placed with `isLocked = true`, which
does not require a single connected component. -/
theorem connectivity_solved_checks (pieces : List PieceS) (placed : PMap)
    (pool : List ℕ) (p0 : PieceS) (hp0 : pieces.head? = some p0)
    (hids : (idsOf pieces).Nodup)
    (hkeys : (placed.map (fun e => e.1)).Nodup)
    (hkeysub : ∀ e ∈ placed, e.1 ∈ idsOf pieces)
    (hgr : ∀ e ∈ placed, ∀ j ∈ e.2.group, j ∈ idsOf pieces) :
    (solvedCheckT pieces placed pool = true ↔
      (pool = [] ∧ (∀ i ∈ idsOf pieces, (objGet placed i).isSome) ∧
       ∀ i ∈ idsOf pieces, Relation.ReflTransGen (stepRel placed) p0.id i)) ∧
    (solvedCheckU pieces placed pool = true ↔
      (pool = [] ∧ ∀ i ∈ idsOf pieces,
        ∃ pl, objGet placed i = some pl ∧ pl.locked = true)) := by
  match pieces, hp0 with
  | p0 :: rest, rfl =>
  set pieces := p0 :: rest with hpieces
  have hlenids : (idsOf pieces).length = pieces.length := List.length_map _ _
  have hp0mem : p0.id ∈ idsOf pieces :=
    List.mem_map.mpr ⟨p0, List.mem_cons_self p0 rest, rfl⟩
  -- keys of placed
  have hkeysmem : ∀ i, i ∈ placed.map (fun e => e.1) ↔ (objGet placed i).isSome := by
    intro i
    constructor
    · intro h
      rw [List.mem_map] at h
      obtain ⟨e, he, hei⟩ := h
      have : objGet placed i = some e.2 :=
        objGet_eq_of_mem_keys_nodup placed hkeys i e.2 (by
          have : e = (i, e.2) := by
            cases e
            simp only [Prod.mk.injEq]
            exact ⟨hei, trivial⟩
          exact this ▸ he)
      rw [this]
      rfl
    · intro h
      match hv : objGet placed i with
      | none => rw [hv] at h; cases h
      | some v =>
        have := objGet_some_mem placed i v hv
        exact List.mem_map.mpr ⟨(i, v), this, rfl⟩
  have hkeyssub : ∀ x ∈ placed.map (fun e => e.1), x ∈ idsOf pieces := by
    intro x hx
    rw [List.mem_map] at hx
    obtain ⟨e, he, hex⟩ := hx
    exact hex ▸ hkeysub e he
  constructor
  · -- triangle variant
    have hunfold : solvedCheckT pieces placed pool =
        (if placed.length = pieces.length ∧ pool.length = 0 then
          decide ((getConnectedGroup placed p0.id).length = pieces.length)
        else false) := rfl
    have hgrpsub : ∀ x ∈ getConnectedGroup placed p0.id, x ∈ idsOf pieces := by
      intro x hx
      rcases mem_getConnectedGroup_cases placed p0.id x hx with rfl | ⟨c, hc⟩
      · exact hp0mem
      · rw [groupOf] at hc
        match hv : objGet placed c with
        | none => rw [hv] at hc; cases hc
        | some v =>
          rw [hv] at hc
          exact hgr (c, v) (objGet_some_mem placed c v hv) x hc
    constructor
    · intro h
      rw [hunfold] at h
      split at h
      · next hcond =>
        obtain ⟨hplen, hpool⟩ := hcond
        rw [decide_eq_true_iff] at h
        have hpool' : pool = [] := List.length_eq_zero.mp hpool
        have hkeyslen : (placed.map (fun e => e.1)).length = placed.length :=
          List.length_map _ _
        have hallplaced : ∀ i ∈ idsOf pieces, i ∈ placed.map (fun e => e.1) :=
          mem_of_nodup_subset_length_ge _ _ hkeys hids hkeyssub (by omega)
        have hallgrp : ∀ i ∈ idsOf pieces, i ∈ getConnectedGroup placed p0.id :=
          mem_of_nodup_subset_length_ge _ _
            (getConnectedGroup_nodup placed p0.id) hids hgrpsub (by omega)
        refine ⟨hpool', ?_, ?_⟩
        · intro i hi
          exact (hkeysmem i).mp (hallplaced i hi)
        · intro i hi
          exact (mem_getConnectedGroup placed p0.id i).mp (hallgrp i hi)
      · cases h
    · rintro ⟨hpool, hplaced, hreach⟩
      rw [hunfold]
      have hkeysup : ∀ i ∈ idsOf pieces, i ∈ placed.map (fun e => e.1) :=
        fun i hi => (hkeysmem i).mpr (hplaced i hi)
      have hlen1 : (idsOf pieces).length ≤ (placed.map (fun e => e.1)).length :=
        length_le_of_nodup_subset _ _ hids hkeysup hkeys
      have hlen2 : (placed.map (fun e => e.1)).length ≤ (idsOf pieces).length :=
        length_le_of_nodup_subset _ _ hkeys hkeyssub hids
      have hkeyslen : (placed.map (fun e => e.1)).length = placed.length :=
        List.length_map _ _
      rw [if_pos ⟨by omega, by rw [hpool]; rfl⟩]
      rw [decide_eq_true_iff]
      have hgrpup : ∀ i ∈ idsOf pieces, i ∈ getConnectedGroup placed p0.id :=
        fun i hi => (mem_getConnectedGroup placed p0.id i).mpr (hreach i hi)
      have hg1 : (idsOf pieces).length ≤ (getConnectedGroup placed p0.id).length :=
        length_le_of_nodup_subset _ _ hids hgrpup (getConnectedGroup_nodup placed p0.id)
      have hg2 : (getConnectedGroup placed p0.id).length ≤ (idsOf pieces).length :=
        length_le_of_nodup_subset _ _ (getConnectedGroup_nodup placed p0.id) hgrpsub hids
      omega
  · -- part_002 / puzzle-random variants
    have hunfold : solvedCheckU pieces placed pool =
        (if pool.length = 0 then
          decide ((placed.filter (fun e => e.2.locked)).length = pieces.length)
        else false) := rfl
    have hlknd : ((placed.filter (fun e => e.2.locked)).map (fun e => e.1)).Nodup := by
      refine List.Nodup.sublist ?_ hkeys
      exact List.Sublist.map _ (List.filter_sublist placed)
    have hlksub : ∀ x ∈ (placed.filter (fun e => e.2.locked)).map (fun e => e.1),
        x ∈ idsOf pieces := by
      intro x hx
      rw [List.mem_map] at hx
      obtain ⟨e, he, hex⟩ := hx
      exact hex ▸ hkeysub e (List.mem_of_mem_filter he)
    constructor
    · intro h
      rw [hunfold] at h
      split at h
      · next hpool =>
        rw [decide_eq_true_iff] at h
        have hflen : ((placed.filter (fun e => e.2.locked)).map (fun e => e.1)).length =
            (placed.filter (fun e => e.2.locked)).length := List.length_map _ _
        have hall : ∀ i ∈ idsOf pieces,
            i ∈ (placed.filter (fun e => e.2.locked)).map (fun e => e.1) :=
          mem_of_nodup_subset_length_ge _ _ hlknd hids hlksub (by omega)
        refine ⟨List.length_eq_zero.mp hpool, ?_⟩
        intro i hi
        have := hall i hi
        rw [List.mem_map] at this
        obtain ⟨e, he, hei⟩ := this
        have hlk := (List.mem_filter.mp he).2
        have hep : e ∈ placed := List.mem_of_mem_filter he
        refine ⟨e.2, ?_, hlk⟩
        apply objGet_eq_of_mem_keys_nodup placed hkeys i e.2
        have : e = (i, e.2) := by
          cases e
          simp only [Prod.mk.injEq]
          exact ⟨hei, trivial⟩
        exact this ▸ hep
      · cases h
    · rintro ⟨hpool, hlocked⟩
      rw [hunfold, if_pos (by rw [hpool]; rfl), decide_eq_true_iff]
      have hup : ∀ i ∈ idsOf pieces,
          i ∈ (placed.filter (fun e => e.2.locked)).map (fun e => e.1) := by
        intro i hi
        obtain ⟨pl, hpl, hlk⟩ := hlocked i hi
        have hmem := objGet_some_mem placed i pl hpl
        refine List.mem_map.mpr ⟨(i, pl), ?_, rfl⟩
        rw [List.mem_filter]
        exact ⟨hmem, hlk⟩
      have h1 : (idsOf pieces).length ≤
          ((placed.filter (fun e => e.2.locked)).map (fun e => e.1)).length :=
        length_le_of_nodup_subset _ _ hids hup hlknd
      have h2 : ((placed.filter (fun e => e.2.locked)).map (fun e => e.1)).length ≤
          (idsOf pieces).length :=
        length_le_of_nodup_subset _ _ hlknd hlksub hids
      have hflen : ((placed.filter (fun e => e.2.locked)).map (fun e => e.1)).length =
          (placed.filter (fun e => e.2.locked)).length := List.length_map _ _
      omega

/-- C4 counterexample: with an empty pool and two disjoint locked groups,
the `part_002` / `puzzle-random` solved check reports solved, although the
BFS over `connectedGroup` links from piece 0 does not visit piece 2 — the
connected-group graph is not a single component, so "solved iff single
spanning component" is false for these connectivity-rule variants. -/
theorem two_components_reported_solved_counterexample :
    solvedCheckU piecesC4 placedC4 [] = true ∧
    (2 : ℕ) ∈ idsOf piecesC4 ∧
    2 ∉ getConnectedGroup placedC4 0 ∧
    ¬ Relation.ReflTransGen (stepRel placedC4) 0 2 := by
  refine ⟨by decide, by decide, by decide, ?_⟩
  intro h
  exact absurd ((mem_getConnectedGroup placedC4 0 2).mpr h) (by decide)

/-- Witness for C4 amended at a concrete fully assembled state. -/
theorem connectivity_solved_checks_witness :
    (solvedCheckT piecesW4 placedW4 [] = true ↔
      (([] : List ℕ) = [] ∧ (∀ i ∈ idsOf piecesW4, (objGet placedW4 i).isSome) ∧
       ∀ i ∈ idsOf piecesW4,
         Relation.ReflTransGen (stepRel placedW4) (PieceS.id ⟨0, ⟨0, 0⟩, []⟩) i)) ∧
    (solvedCheckU piecesW4 placedW4 [] = true ↔
      (([] : List ℕ) = [] ∧ ∀ i ∈ idsOf piecesW4,
        ∃ pl, objGet placedW4 i = some pl ∧ pl.locked = true)) :=
  connectivity_solved_checks piecesW4 placedW4 [] ⟨0, ⟨0, 0⟩, []⟩ rfl
    (by decide) (by decide) (by decide) (by decide)

/-! ## C3 -/

theorem pt_add_sub_cancel (a b : Pt) : Pt.add a (Pt.sub b a) = b := by
  cases a
  cases b
  rw [Pt.add, Pt.sub]
  simp only [Pt.mk.injEq]
  constructor
  · ring
  · ring

/-- Lookup of a group member after the triangle variant's group move. -/
theorem moveGroupT_lookup (prev : PMap) (grp : List ℕ) (d : Pt)
    (i : ℕ) (old : Placed) (hi : i ∈ grp) (hold : objGet prev i = some old) :
    objGet (moveGroupT prev grp d) i = some ⟨Pt.add old.pos d, false, old.group⟩ := by
  rw [moveGroupT]
  apply objGet_writeEach_mem_some prev grp _ i _ hi
  rw [hold]
  rfl

/-- C3: a drag-move applied to a placed piece with a connected group moves
every member of the group by exactly the same delta as the anchor.  First
conjunct: the triangle variant's `handleDragEnd` placed branch shifts every
member of the dragged group by the pointer delta `d` (and unlocks it,
keeping its `connectedGroup`).  Second conjunct: over any sequence of such
drag-moves, the pairwise relative offsets of group members are unchanged.
Third conjunct: `handleMouseMove` of `part_002` moves every dragged piece
by the same delta `target − oldPrimary.position` that it applies to the
anchor (the anchor additionally has its `connectedGroup` reset to empty,
and everything is unlocked). -/
theorem rigid_group_translation (prev : PMap) (grp : List ℕ) (d : Pt) :
    (∀ i old, i ∈ grp → objGet prev i = some old →
      objGet (moveGroupT prev grp d) i =
        some ⟨Pt.add old.pos d, false, old.group⟩) ∧
    (∀ (ds : List Pt) (i j : ℕ) (oi oj : Placed), i ∈ grp → j ∈ grp →
      objGet prev i = some oi → objGet prev j = some oj →
      ∃ ei ej,
        objGet (ds.foldl (fun m δ => moveGroupT m grp δ) prev) i = some ei ∧
        objGet (ds.foldl (fun m δ => moveGroupT m grp δ) prev) j = some ej ∧
        Pt.sub ei.pos ej.pos = Pt.sub oi.pos oj.pos) ∧
    (∀ (rest : List ℕ) (primary : ℕ) (target : Pt) (oldP : Placed) (i : ℕ)
      (old : Placed),
      objGet prev primary = some oldP →
      i ∈ primary :: rest → objGet prev i = some old →
      objGet (handleMouseMoveU prev (primary :: rest) target) i =
        some ⟨Pt.add old.pos (Pt.sub target oldP.pos), false,
              if i = primary then [] else old.group⟩) := by
  refine ⟨fun i old hi hold => moveGroupT_lookup prev grp d i old hi hold, ?_, ?_⟩
  · intro ds
    induction ds generalizing prev with
    | nil =>
      intro i j oi oj _ _ hoi hoj
      exact ⟨oi, oj, hoi, hoj, rfl⟩
    | cons δ t ih =>
      intro i j oi oj hi hj hoi hoj
      rw [List.foldl_cons]
      have hoi' := moveGroupT_lookup prev grp δ i oi hi hoi
      have hoj' := moveGroupT_lookup prev grp δ j oj hj hoj
      obtain ⟨ei, ej, hei, hej, hdiff⟩ :=
        ih (moveGroupT prev grp δ) i j _ _ hi hj hoi' hoj'
      refine ⟨ei, ej, hei, hej, ?_⟩
      rw [hdiff]
      cases oi
      cases oj
      cases δ
      rw [Pt.sub, Pt.sub, Pt.add, Pt.add]
      simp only [Pt.mk.injEq]
      constructor
      · ring
      · ring
  · intro rest primary target oldP i old hP hi hold
    rw [handleMouseMoveU, hP]
    by_cases hip : i = primary
    · subst hip
      have hvv : old = oldP := by
        rw [hold] at hP
        exact Option.some_inj.mp hP
      rw [if_pos rfl]
      have := objGet_writeEach_mem_some prev (i :: rest)
        (fun j => if j = i then some ⟨target, false, []⟩
          else (objGet prev j).map
            (fun o => ⟨Pt.add o.pos (Pt.sub target oldP.pos), false, o.group⟩))
        i ⟨target, false, []⟩ (List.mem_cons_self i rest) (by simp)
      rw [this, hvv, pt_add_sub_cancel]
    · rw [if_neg hip]
      apply objGet_writeEach_mem_some prev (primary :: rest) _ i _ hi
      rw [if_neg hip, hold]
      rfl

/-- Witness for C3 on a concrete two-piece group: one move by (2,5), a
sequence of two moves, and a `part_002` mouse-move. -/
theorem rigid_group_translation_witness :
    objGet (moveGroupT placedW3 [0, 1] ⟨2, 5⟩) 0 =
      some ⟨Pt.add ⟨1, 1⟩ ⟨2, 5⟩, false, [1]⟩ ∧
    (∃ ei ej,
      objGet ([⟨2, 5⟩, ⟨-1, 0⟩].foldl (fun m δ => moveGroupT m [0, 1] δ) placedW3) 0 =
        some ei ∧
      objGet ([⟨2, 5⟩, ⟨-1, 0⟩].foldl (fun m δ => moveGroupT m [0, 1] δ) placedW3) 1 =
        some ej ∧
      Pt.sub ei.pos ej.pos = Pt.sub (Pt.mk 1 1) (Pt.mk 3 1)) ∧
    objGet (handleMouseMoveU placedW3 [0, 1] ⟨50, 50⟩) 1 =
      some ⟨Pt.add ⟨3, 1⟩ (Pt.sub ⟨50, 50⟩ ⟨1, 1⟩), false,
            if (1 : ℕ) = 0 then [] else [0]⟩ := by
  obtain ⟨h1, h2, h3⟩ := rigid_group_translation placedW3 [0, 1] ⟨2, 5⟩
  refine ⟨h1 0 ⟨⟨1, 1⟩, true, [1]⟩ (by decide) rfl, ?_, ?_⟩
  · exact h2 [⟨2, 5⟩, ⟨-1, 0⟩] 0 1 ⟨⟨1, 1⟩, true, [1]⟩ ⟨⟨3, 1⟩, true, [0]⟩
      (by decide) (by decide) rfl rfl
  · exact h3 [1] 0 ⟨50, 50⟩ ⟨⟨1, 1⟩, true, [1]⟩ 1 ⟨⟨3, 1⟩, true, [0]⟩ rfl
      (by decide) rfl

/-! ## C2 -/

theorem mem_allC_pool (pid : ℕ) (nbrs : List ℕ) (i : ℕ) :
    i ∈ addAllUniq (addUniq [] pid) nbrs ↔ (i = pid ∨ i ∈ nbrs) := by
  rw [mem_addAllUniq, mem_addUniq]
  simp

theorem mem_allC_drag (dragIds nbrs : List ℕ) (i : ℕ) :
    i ∈ addAllUniq (addAllUniq [] dragIds) nbrs ↔ (i ∈ dragIds ∨ i ∈ nbrs) := by
  rw [mem_addAllUniq, mem_addAllUniq]
  simp

/-- Lookup in the triangle pool-branch snap merge. -/
theorem mergeSnapT_lookup (prev : PMap) (pid : ℕ) (fp : Pt) (nbrs : List ℕ)
    (hnb : ∀ i ∈ nbrs, (objGet prev i).isSome) :
    ∀ i, i ∈ addAllUniq (addUniq [] pid) nbrs →
      ∃ e, objGet (mergeSnapT prev pid fp nbrs) i = some e ∧ e.locked = true ∧
        ∀ j, j ∈ e.group ↔
          (j ∈ addAllUniq (addUniq [] pid) nbrs ∧ ¬ j = i) := by
  intro i hi
  by_cases hip : i = pid
  · subst hip
    refine ⟨⟨fp, true, (addAllUniq (addUniq [] i) nbrs).filter
      (fun c => decide (¬ c = i))⟩, ?_, rfl, ?_⟩
    · rw [mergeSnapT]
      apply objGet_writeEach_mem_some _ _ _ i _ hi
      rw [if_pos rfl]
    · intro j
      simp only [List.mem_filter, decide_eq_true_iff]
  · have hin : i ∈ nbrs := by
      rcases (mem_allC_pool pid nbrs i).mp hi with h | h
      · exact absurd h hip
      · exact h
    match hv : objGet prev i with
    | none =>
      have := hnb i hin
      rw [hv] at this
      cases this
    | some old =>
      refine ⟨⟨old.pos, true, (addAllUniq (addUniq [] pid) nbrs).filter
        (fun c => decide (¬ c = i))⟩, ?_, rfl, ?_⟩
      · rw [mergeSnapT]
        apply objGet_writeEach_mem_some _ _ _ i _ hi
        rw [if_neg hip, hv]
        rfl
      · intro j
        simp only [List.mem_filter, decide_eq_true_iff]

/-- Lookup in the `part_002` snap merge for a dragged piece. -/
theorem mergeU_lookup_drag (prev : PMap) (dragIds : List ℕ) (off : Pt)
    (nbrs : List ℕ) (hdisj : ∀ i ∈ nbrs, i ∉ dragIds) :
    ∀ i old, i ∈ dragIds → objGet prev i = some old →
      objGet (mergeU prev dragIds off nbrs) i =
        some ⟨Pt.add old.pos off, true,
          (addAllUniq (addAllUniq [] dragIds) nbrs).filter
            (fun c => decide (¬ c = i))⟩ := by
  intro i old hi hold
  rw [mergeU]
  have hnotn : i ∉ nbrs := fun h => hdisj i h hi
  rw [objGet_writeEach_not_mem _ nbrs _ i hnotn]
  apply objGet_writeEach_mem_some _ _ _ i _ hi
  rw [hold]
  rfl

/-- Lookup in the `part_002` snap merge for a snapped-to neighbor: its
position and its lock flag are both kept from the previous record. -/
theorem mergeU_lookup_nbr (prev : PMap) (dragIds : List ℕ) (off : Pt)
    (nbrs : List ℕ) :
    ∀ i old, i ∈ nbrs → objGet prev i = some old →
      objGet (mergeU prev dragIds off nbrs) i =
        some ⟨old.pos, old.locked,
          (addAllUniq (addAllUniq [] dragIds) nbrs).filter
            (fun c => decide (¬ c = i))⟩ := by
  intro i old hi hold
  rw [mergeU]
  apply objGet_writeEach_mem_some _ _ _ i _ hi
  rw [hold]
  rfl

/-- C2 amended: after a successful snap merge the merged set becomes a
clique of the `connectedGroup` relation — every member's `connectedGroup`
is exactly the merged set minus itself, hence the relation is symmetric
and transitive over the merged set and every member reaches every other
member.  In the triangle variant every member also gets
`isLocked = true` (conjuncts 1, 2 for the pool branch and 6 for the placed
branch), but in the `part_002` variant only the dragged pieces are locked:
snapped-to neighbors keep their previous `isLocked` flag (conjuncts 3–5). -/
theorem snap_merge_clique
    (prev : PMap) (pid : ℕ) (fp : Pt) (nbrs : List ℕ)
    (dragIds : List ℕ) (off : Pt) (nbrs2 : List ℕ)
    (nm : PMap) (grp : List ℕ) (bs : BestSnap) (allN : List ℕ)
    (hnb : ∀ i ∈ nbrs, (objGet prev i).isSome)
    (hdisj : ∀ i ∈ nbrs2, i ∉ dragIds)
    (hdrag : ∀ i ∈ dragIds, (objGet prev i).isSome)
    (hnb2 : ∀ i ∈ nbrs2, (objGet prev i).isSome) :
    (∀ i, i ∈ addAllUniq (addUniq [] pid) nbrs →
      ∃ e, objGet (mergeSnapT prev pid fp nbrs) i = some e ∧ e.locked = true ∧
        ∀ j, j ∈ e.group ↔
          (j ∈ addAllUniq (addUniq [] pid) nbrs ∧ ¬ j = i)) ∧
    (∀ i j, i ∈ addAllUniq (addUniq [] pid) nbrs →
      j ∈ addAllUniq (addUniq [] pid) nbrs →
      Relation.ReflTransGen (stepRel (mergeSnapT prev pid fp nbrs)) i j) ∧
    (∀ i old, i ∈ dragIds → objGet prev i = some old →
      objGet (mergeU prev dragIds off nbrs2) i =
        some ⟨Pt.add old.pos off, true,
          (addAllUniq (addAllUniq [] dragIds) nbrs2).filter
            (fun c => decide (¬ c = i))⟩) ∧
    (∀ i old, i ∈ nbrs2 → objGet prev i = some old →
      objGet (mergeU prev dragIds off nbrs2) i =
        some ⟨old.pos, old.locked,
          (addAllUniq (addAllUniq [] dragIds) nbrs2).filter
            (fun c => decide (¬ c = i))⟩) ∧
    (∀ i j, i ∈ addAllUniq (addAllUniq [] dragIds) nbrs2 →
      j ∈ addAllUniq (addAllUniq [] dragIds) nbrs2 →
      Relation.ReflTransGen (stepRel (mergeU prev dragIds off nbrs2)) i j) ∧
    (∀ i old, i ∈ applyAllC nm grp allN → objGet nm i = some old →
      objGet (applyGroupSnapT nm grp bs allN) i =
        some ⟨(if i ∈ grp then
                Pt.add old.pos ⟨bs.snapPos.x - bs.groupPiecePos.x,
                                bs.snapPos.y - bs.groupPiecePos.y⟩
               else old.pos), true,
          (applyAllC nm grp allN).filter (fun c => decide (¬ c = i))⟩) := by
  refine ⟨mergeSnapT_lookup prev pid fp nbrs hnb, ?_,
    mergeU_lookup_drag prev dragIds off nbrs2 hdisj,
    mergeU_lookup_nbr prev dragIds off nbrs2, ?_, ?_⟩
  · intro i j hi hj
    by_cases hij : j = i
    · exact hij ▸ Relation.ReflTransGen.refl
    · obtain ⟨e, he, _, hgrp⟩ := mergeSnapT_lookup prev pid fp nbrs hnb i hi
      have hstep : stepRel (mergeSnapT prev pid fp nbrs) i j := by
        rw [stepRel, groupOf, he]
        exact (hgrp j).mpr ⟨hj, hij⟩
      exact Relation.ReflTransGen.single hstep
  · intro i j hi hj
    by_cases hij : j = i
    · exact hij ▸ Relation.ReflTransGen.refl
    · have hstep : stepRel (mergeU prev dragIds off nbrs2) i j := by
        rcases (mem_allC_drag dragIds nbrs2 i).mp hi with h | h
        · match hv : objGet prev i with
          | none =>
            have := hdrag i h
            rw [hv] at this
            cases this
          | some old =>
            rw [stepRel, groupOf,
              mergeU_lookup_drag prev dragIds off nbrs2 hdisj i old h hv]
            rw [List.mem_filter]
            exact ⟨hj, by rw [decide_eq_true_iff]; exact hij⟩
        · match hv : objGet prev i with
          | none =>
            have := hnb2 i h
            rw [hv] at this
            cases this
          | some old =>
            rw [stepRel, groupOf,
              mergeU_lookup_nbr prev dragIds off nbrs2 i old h hv]
            rw [List.mem_filter]
            exact ⟨hj, by rw [decide_eq_true_iff]; exact hij⟩
      exact Relation.ReflTransGen.single hstep
  · intro i old hi hold
    rw [applyGroupSnapT]
    apply objGet_writeEach_mem_some _ _ _ i _ hi
    rw [hold]
    rfl

/-- C2 counterexample: releasing the drag of piece 1 in the `part_002`
variant snaps it to its loose placed neighbor 0 and merges the two into a
mutual `connectedGroup`, but the snap-candidate neighbor 0 keeps
`isLocked = false` — contradicting the claim that after the merge all
members have `isLocked = true`. -/
theorem loose_neighbor_stays_unlocked_counterexample :
    objGet (handleMouseUpU piecesC2 placedC2 20 [1]) 1 =
      some ⟨⟨110, 100⟩, true, [0]⟩ ∧
    objGet (handleMouseUpU piecesC2 placedC2 20 [1]) 0 =
      some ⟨⟨100, 100⟩, false, [1]⟩ := by
  constructor
  · decide
  · decide

/-- Witness for C2 amended: concrete two-piece merges in both variants. -/
theorem snap_merge_clique_witness :
    (∃ e, objGet (mergeSnapT placedC2 2 ⟨50, 50⟩ [0, 1]) 0 = some e ∧
      e.locked = true ∧
      ∀ j, j ∈ e.group ↔ (j ∈ addAllUniq (addUniq [] 2) [0, 1] ∧ ¬ j = 0)) ∧
    Relation.ReflTransGen (stepRel (mergeSnapT placedC2 2 ⟨50, 50⟩ [0, 1])) 0 2 ∧
    objGet (mergeU placedC2 [1] ⟨5, 0⟩ [0]) 0 =
      some ⟨⟨100, 100⟩, false,
        (addAllUniq (addAllUniq [] [1]) [0]).filter (fun c => decide (¬ c = 0))⟩ := by
  obtain ⟨h1, h2, h3, h4, h5, h6⟩ :=
    snap_merge_clique placedC2 2 ⟨50, 50⟩ [0, 1] [1] ⟨5, 0⟩ [0]
      placedC2 [1] ⟨⟨0, 0⟩, 0, ⟨0, 0⟩, 0, 0⟩ [0]
      (by decide) (by decide) (by decide) (by decide)
  refine ⟨h1 0 (by decide), h2 0 2 (by decide) (by decide), ?_⟩
  exact h4 0 ⟨⟨100, 100⟩, false, []⟩ (by decide) (by decide)

/-- Every id reachable from `start` lies in the piece-id set, provided the
start does and every stored `connectedGroup` does. -/
theorem getConnectedGroup_sub (pieces : List PieceS) (placed : PMap) (start : ℕ)
    (hgr : ∀ e ∈ placed, ∀ j ∈ e.2.group, j ∈ idsOf pieces)
    (hstart : start ∈ idsOf pieces) :
    ∀ x ∈ getConnectedGroup placed start, x ∈ idsOf pieces := by
  intro x hx
  rcases mem_getConnectedGroup_cases placed start x hx with rfl | ⟨c, hc⟩
  · exact hstart
  · rw [groupOf] at hc
    match hv : objGet placed c with
    | none => rw [hv] at hc; cases hc
    | some v =>
      rw [hv] at hc
      exact hgr (c, v) (objGet_some_mem placed c v hv) x hc

/-- Ids visited by the blocked BFS walk lie in the piece-id set, provided
the start does and every stored `connectedGroup` does. -/
theorem bfsAux_single_sub (pieces : List PieceS) (nm : PMap) (blocked : List ℕ)
    (f : ℕ) (start : ℕ)
    (hgr : ∀ e ∈ nm, ∀ j ∈ e.2.group, j ∈ idsOf pieces)
    (hstart : start ∈ idsOf pieces) :
    ∀ x ∈ bfsAux nm blocked f [start] [], x ∈ idsOf pieces := by
  intro x hx
  rcases bfsAux_sound nm blocked f [start] [] x hx with h | ⟨s, hs, hrtg⟩
  · cases h
  · rw [List.mem_singleton] at hs
    subst hs
    induction hrtg with
    | refl => exact hstart
    | @tail b c _ h2 _ =>
      rw [stepRel, groupOf] at h2
      match hv : objGet nm b with
      | none => rw [hv] at h2; cases h2
      | some v =>
        rw [hv] at h2
        exact hgr (b, v) (objGet_some_mem nm b v hv) _ h2

/-- Generic membership principle for a left fold whose step either keeps
the accumulator's elements or contributes new ones related to the scanned
element. -/
theorem mem_foldl_of_step {α β : Type} (step : List β → α → List β)
    (Q : α → β → Prop)
    (hstep : ∀ acc a c, c ∈ step acc a → c ∈ acc ∨ Q a c) :
    ∀ (l : List α) (acc : List β) (c : β), c ∈ l.foldl step acc →
      c ∈ acc ∨ ∃ a ∈ l, Q a c := by
  intro l
  induction l with
  | nil => intro acc c hc; exact Or.inl hc
  | cons a t ih =>
    intro acc c hc
    rw [List.foldl_cons] at hc
    rcases ih _ c hc with h | ⟨a', ha', hq⟩
    · rcases hstep acc a c h with h' | hq
      · exact Or.inl h'
      · exact Or.inr ⟨a, List.mem_cons_self a t, hq⟩
    · exact Or.inr ⟨a', List.mem_cons_of_mem a ha', hq⟩

/-- Every candidate's neighbor id comes from the dragged piece's
`neighbors` values. -/
theorem snapCandidates_nId_mem (pieces : List PieceS) (placed : PMap)
    (thr : ℚ) (pc : PieceS) (pos : Pt) :
    ∀ c ∈ snapCandidates pieces placed thr pc pos, some c.nId ∈ pc.nbrs := by
  intro c hc
  rw [snapCandidates] at hc
  have h := mem_foldl_of_step _ (fun nOpt c => nOpt = some (Cand.nId c))
    ?_ pc.nbrs [] c hc
  · rcases h with h | ⟨a, ha, hq⟩
    · cases h
    · rw [hq] at ha; exact ha
  · intro acc a c' hc'
    split at hc'
    · exact Or.inl hc'
    · split at hc'
      · exact Or.inl hc'
      · split at hc'
        · exact Or.inl hc'
        · split at hc'
          · rcases List.mem_append.mp hc' with h | h
            · exact Or.inl h
            · rw [List.mem_singleton] at h
              subst h
              exact Or.inr rfl
          · exact Or.inl hc'

/-- Membership in the folded neighbor-expansion set of
`checkAndSnapToNeighbors`. -/
theorem mem_neighbors_fold (placed : PMap) (cands : List Cand) (acc : List ℕ)
    (x : ℕ)
    (hx : x ∈ cands.foldl (fun acc c =>
      addAllUniq (addUniq acc c.nId) (getConnectedGroup placed c.nId)) acc) :
    x ∈ acc ∨ ∃ c ∈ cands, x = c.nId ∨ x ∈ getConnectedGroup placed c.nId := by
  induction cands generalizing acc with
  | nil => exact Or.inl hx
  | cons c t ih =>
    rw [List.foldl_cons] at hx
    rcases ih _ hx with h | ⟨c', hc', h'⟩
    · rw [mem_addAllUniq, mem_addUniq] at h
      rcases h with (h | h) | h
      · exact Or.inl h
      · exact Or.inr ⟨c, List.mem_cons_self c t, Or.inl h⟩
      · exact Or.inr ⟨c, List.mem_cons_self c t, Or.inr h⟩
    · exact Or.inr ⟨c', List.mem_cons_of_mem c hc', h'⟩

/-- Every candidate's neighbor id resolves through `findPiece`, hence is a
genuine piece id. -/
theorem snapCandidates_nId_ids (pieces : List PieceS) (placed : PMap)
    (thr : ℚ) (pc : PieceS) (pos : Pt) :
    ∀ c ∈ snapCandidates pieces placed thr pc pos, c.nId ∈ idsOf pieces := by
  intro c hc
  rw [snapCandidates] at hc
  have h := mem_foldl_of_step _ (fun _ c => Cand.nId c ∈ idsOf pieces)
    ?_ pc.nbrs [] c hc
  · rcases h with h | ⟨a, _, hq⟩
    · cases h
    · exact hq
  · intro acc a c' hc'
    split at hc'
    · exact Or.inl hc'
    · split at hc'
      · exact Or.inl hc'
      · split at hc'
        · exact Or.inl hc'
        · next np heq =>
          split at hc'
          · rcases List.mem_append.mp hc' with h | h
            · exact Or.inl h
            · rw [List.mem_singleton] at h
              subst h
              exact Or.inr ((findPiece_isSome_iff pieces _).mp
                (by rw [heq]; rfl))
          · exact Or.inl hc'

/-- The neighbor list returned by `checkAndSnapToNeighbors` stays inside
the piece-id set. -/
theorem checkAndSnap_neighbors_sub (pieces : List PieceS) (placed : PMap)
    (thr : ℚ) (pid : ℕ) (pos : Pt)
    (hgr : ∀ e ∈ placed, ∀ j ∈ e.2.group, j ∈ idsOf pieces) :
    ∀ x ∈ (checkAndSnapToNeighbors pieces placed thr pid pos).neighbors,
      x ∈ idsOf pieces := by
  intro x hx
  rw [checkAndSnapToNeighbors] at hx
  split at hx
  · exact absurd hx (List.not_mem_nil x)
  · next pc hf =>
    simp only at hx
    split at hx
    · exact absurd hx (List.not_mem_nil x)
    · simp only at hx
      rcases mem_neighbors_fold placed _ [] x hx with h | ⟨c, hc, h'⟩
      · cases h
      · have hcid : c.nId ∈ idsOf pieces :=
          snapCandidates_nId_ids pieces placed thr pc pos c hc
        rcases h' with rfl | h'
        · exact hcid
        · exact getConnectedGroup_sub pieces placed c.nId hgr hcid x h'

/-- Case analysis for a lookup in the triangle pool-branch snap merge. -/
theorem objGet_mergeSnapT_cases (prev : PMap) (pid : ℕ) (fp : Pt)
    (nbrs : List ℕ) (x : ℕ) :
    objGet (mergeSnapT prev pid fp nbrs) x = objGet prev x ∨
      (x ∈ addAllUniq (addUniq [] pid) nbrs ∧
        objGet (mergeSnapT prev pid fp nbrs) x =
          (if x = pid then
            some ⟨fp, true, (addAllUniq (addUniq [] pid) nbrs).filter
              (fun c => decide (¬ c = x))⟩
          else (objGet prev x).map (fun old =>
            ⟨old.pos, true, (addAllUniq (addUniq [] pid) nbrs).filter
              (fun c => decide (¬ c = x))⟩))) :=
  objGet_writeEach_cases prev _ _ x

/-- The pool-branch snap merge adds no key besides the dragged piece. -/
theorem objGet_mergeSnapT_none (prev : PMap) (pid : ℕ) (fp : Pt)
    (nbrs : List ℕ) (x : ℕ) (hx : ¬ x = pid) (h0 : objGet prev x = none) :
    objGet (mergeSnapT prev pid fp nbrs) x = none := by
  rcases objGet_mergeSnapT_cases prev pid fp nbrs x with h | ⟨_, h⟩
  · rw [h, h0]
  · rw [h, if_neg hx, h0]
    rfl

/-- The pool-branch snap merge keeps every existing key. -/
theorem objGet_mergeSnapT_isSome_of (prev : PMap) (pid : ℕ) (fp : Pt)
    (nbrs : List ℕ) (x : ℕ) (h0 : (objGet prev x).isSome = true) :
    (objGet (mergeSnapT prev pid fp nbrs) x).isSome = true := by
  obtain ⟨v, hv⟩ := Option.isSome_iff_exists.mp h0
  rcases objGet_mergeSnapT_cases prev pid fp nbrs x with h | ⟨_, h⟩
  · rw [h]; exact h0
  · rw [h]
    by_cases hx : x = pid
    · rw [if_pos hx]; rfl
    · rw [if_neg hx, hv]; rfl

/-- The pool-branch snap merge stores the dragged piece. -/
theorem objGet_mergeSnapT_self (prev : PMap) (pid : ℕ) (fp : Pt)
    (nbrs : List ℕ) :
    objGet (mergeSnapT prev pid fp nbrs) pid =
      some ⟨fp, true, (addAllUniq (addUniq [] pid) nbrs).filter
        (fun c => decide (¬ c = pid))⟩ := by
  refine objGet_writeEach_mem_some _ _ _ pid _ ?_ ?_
  · rw [mem_allC_pool]
    exact Or.inl rfl
  · simp

/-- The pool-branch snap merge preserves map well-formedness provided the
dragged id and the neighbor ids are real piece ids. -/
theorem placedWF_mergeSnapT (pieces : List PieceS) (prev : PMap) (pid : ℕ)
    (fp : Pt) (nbrs : List ℕ) (hwf : PlacedWF pieces prev)
    (hpid : pid ∈ idsOf pieces) (hnbrs : ∀ y ∈ nbrs, y ∈ idsOf pieces) :
    PlacedWF pieces (mergeSnapT prev pid fp nbrs) := by
  have hallC : ∀ y ∈ addAllUniq (addUniq [] pid) nbrs, y ∈ idsOf pieces := by
    intro y hy
    rcases (mem_allC_pool pid nbrs y).mp hy with rfl | hy'
    exacts [hpid, hnbrs y hy']
  intro e he
  rw [mergeSnapT] at he
  rcases mem_writeEach prev _ _ e he with h | ⟨hm, hf⟩
  · exact hwf e h
  · have hf' : (if e.1 = pid then
        some (⟨fp, true, (addAllUniq (addUniq [] pid) nbrs).filter
          (fun c => decide (¬ c = e.1))⟩ : Placed)
      else (objGet prev e.1).map (fun old =>
        ⟨old.pos, true, (addAllUniq (addUniq [] pid) nbrs).filter
          (fun c => decide (¬ c = e.1))⟩)) = some e.2 := hf
    by_cases hx : e.1 = pid
    · rw [if_pos hx] at hf'
      injection hf' with h2
      refine ⟨hx ▸ hpid, ?_⟩
      intro j hj
      rw [← h2] at hj
      exact hallC j (List.mem_of_mem_filter hj)
    · rw [if_neg hx] at hf'
      match hv : objGet prev e.1 with
      | none => rw [hv] at hf'; simp at hf'
      | some old =>
        rw [hv, Option.map_some'] at hf'
        injection hf' with h2
        have hmem := objGet_some_mem prev e.1 old hv
        refine ⟨(hwf (e.1, old) hmem).1, ?_⟩
        intro j hj
        rw [← h2] at hj
        exact hallC j (List.mem_of_mem_filter hj)

/-- The pool branch of the triangle drop adds no key besides the dragged
piece. -/
theorem objGet_poolDropT_none (pieces : List PieceS) (placed : PMap)
    (thr : ℚ) (pid : ℕ) (dropPos : Pt) (x : ℕ) (hx : ¬ x = pid)
    (h0 : objGet placed x = none) :
    objGet (poolDropT pieces placed thr pid dropPos) x = none := by
  simp only [poolDropT]
  split
  · exact objGet_mergeSnapT_none placed pid _ _ x hx h0
  · rw [objGet_objSet_ne placed pid x _ hx]
    exact h0

/-- The pool branch of the triangle drop stores the dragged piece. -/
theorem objGet_poolDropT_self_isSome (pieces : List PieceS) (placed : PMap)
    (thr : ℚ) (pid : ℕ) (dropPos : Pt) :
    (objGet (poolDropT pieces placed thr pid dropPos) pid).isSome = true := by
  simp only [poolDropT]
  split
  · rw [objGet_mergeSnapT_self]
    rfl
  · rw [objGet_objSet_self]
    rfl

/-- The pool branch of the triangle drop keeps every existing key. -/
theorem objGet_poolDropT_isSome_of (pieces : List PieceS) (placed : PMap)
    (thr : ℚ) (pid : ℕ) (dropPos : Pt) (x : ℕ)
    (h0 : (objGet placed x).isSome = true) :
    (objGet (poolDropT pieces placed thr pid dropPos) x).isSome = true := by
  simp only [poolDropT]
  split
  · exact objGet_mergeSnapT_isSome_of placed pid _ _ x h0
  · by_cases hx : x = pid
    · subst hx
      rw [objGet_objSet_self]
      rfl
    · rw [objGet_objSet_ne placed pid x _ hx]
      exact h0

/-- The pool branch of the triangle drop preserves map well-formedness. -/
theorem placedWF_poolDropT (pieces : List PieceS) (placed : PMap) (thr : ℚ)
    (pid : ℕ) (dropPos : Pt) (hwf : PlacedWF pieces placed)
    (hpid : pid ∈ idsOf pieces) :
    PlacedWF pieces (poolDropT pieces placed thr pid dropPos) := by
  simp only [poolDropT]
  split
  · exact placedWF_mergeSnapT pieces placed pid _ _ hwf hpid
      (checkAndSnap_neighbors_sub pieces placed thr pid dropPos
        (fun e he => (hwf e he).2))
  · intro e he
    rcases mem_objSet placed pid _ e he with h | h
    · exact hwf e h
    · subst h
      refine ⟨hpid, ?_⟩
      intro j hj
      exact absurd hj (List.not_mem_nil j)

/-- A `writeEach` whose update function only maps existing records neither
adds nor removes keys. -/
theorem objGet_writeEach_map_isSome (m0 : PMap) (l : List ℕ)
    (g : ℕ → Placed → Placed) (i : ℕ) :
    (objGet (writeEach m0 l (fun j => (objGet m0 j).map (g j))) i).isSome
      = (objGet m0 i).isSome := by
  rcases objGet_writeEach_cases m0 l (fun j => (objGet m0 j).map (g j)) i
    with h | ⟨_, h⟩
  · rw [h]
  · rw [h]
    show ((objGet m0 i).map (g i)).isSome = (objGet m0 i).isSome
    cases objGet m0 i <;> rfl

/-- The group move of the placed branch neither adds nor removes keys. -/
theorem objGet_moveGroupT_isSome (prev : PMap) (grp : List ℕ) (d : Pt)
    (i : ℕ) :
    (objGet (moveGroupT prev grp d) i).isSome = (objGet prev i).isSome := by
  rw [moveGroupT]
  exact objGet_writeEach_map_isSome prev grp
    (fun _ old => ⟨Pt.add old.pos d, false, old.group⟩) i

/-- The group-snap application neither adds nor removes keys. -/
theorem objGet_applyGroupSnapT_isSome (nm : PMap) (grp : List ℕ)
    (bs : BestSnap) (allN : List ℕ) (i : ℕ) :
    (objGet (applyGroupSnapT nm grp bs allN) i).isSome
      = (objGet nm i).isSome := by
  rw [applyGroupSnapT]
  exact objGet_writeEach_map_isSome nm (applyAllC nm grp allN)
    (fun j old => ⟨if j ∈ grp then
        Pt.add old.pos ⟨bs.snapPos.x - bs.groupPiecePos.x,
          bs.snapPos.y - bs.groupPiecePos.y⟩
      else old.pos, true,
      (applyAllC nm grp allN).filter (fun c => decide (¬ c = j))⟩) i

/-- The placed branch of the triangle drop neither adds nor removes keys. -/
theorem objGet_placedDropT_isSome (pieces : List PieceS) (placed : PMap)
    (thr : ℚ) (pid : ℕ) (d : Pt) (x : ℕ) :
    (objGet (placedDropT pieces placed thr pid d) x).isSome
      = (objGet placed x).isSome := by
  simp only [placedDropT]
  split
  · split
    · rw [objGet_applyGroupSnapT_isSome, objGet_moveGroupT_isSome]
    · rw [objGet_moveGroupT_isSome]
  · rw [objGet_moveGroupT_isSome]

/-- The group move preserves map well-formedness. -/
theorem placedWF_moveGroupT (pieces : List PieceS) (prev : PMap)
    (grp : List ℕ) (d : Pt) (hwf : PlacedWF pieces prev) :
    PlacedWF pieces (moveGroupT prev grp d) := by
  intro e he
  rw [moveGroupT] at he
  rcases mem_writeEach prev _ _ e he with h | ⟨_, hf⟩
  · exact hwf e h
  · have hf' : (objGet prev e.1).map (fun old =>
        (⟨Pt.add old.pos d, false, old.group⟩ : Placed)) = some e.2 := hf
    match hv : objGet prev e.1 with
    | none => rw [hv] at hf'; simp at hf'
    | some old =>
      rw [hv, Option.map_some'] at hf'
      injection hf' with h2
      have hmem := objGet_some_mem prev e.1 old hv
      refine ⟨(hwf (e.1, old) hmem).1, ?_⟩
      intro j hj
      rw [← h2] at hj
      exact (hwf (e.1, old) hmem).2 j hj

/-- The group-snap application preserves map well-formedness provided the
merged id set consists of real piece ids. -/
theorem placedWF_applyGroupSnapT (pieces : List PieceS) (nm : PMap)
    (grp : List ℕ) (bs : BestSnap) (allN : List ℕ)
    (hwf : PlacedWF pieces nm)
    (hsub : ∀ y ∈ applyAllC nm grp allN, y ∈ idsOf pieces) :
    PlacedWF pieces (applyGroupSnapT nm grp bs allN) := by
  intro e he
  rw [applyGroupSnapT] at he
  rcases mem_writeEach nm _ _ e he with h | ⟨_, hf⟩
  · exact hwf e h
  · have hf' : (objGet nm e.1).map (fun old =>
        (⟨if e.1 ∈ grp then
            Pt.add old.pos ⟨bs.snapPos.x - bs.groupPiecePos.x,
              bs.snapPos.y - bs.groupPiecePos.y⟩
          else old.pos, true,
          (applyAllC nm grp allN).filter
            (fun c => decide (¬ c = e.1))⟩ : Placed)) = some e.2 := hf
    match hv : objGet nm e.1 with
    | none => rw [hv] at hf'; simp at hf'
    | some old =>
      rw [hv, Option.map_some'] at hf'
      injection hf' with h2
      have hmem := objGet_some_mem nm e.1 old hv
      refine ⟨(hwf (e.1, old) hmem).1, ?_⟩
      intro j hj
      rw [← h2] at hj
      exact hsub j (List.mem_of_mem_filter hj)

/-- Invariant preservation along a left fold. -/
theorem foldl_invariant {α β : Type} (step : β → α → β) (P : β → Prop)
    (hstep : ∀ st a, P st → P (step st a)) :
    ∀ (l : List α) (st : β), P st → P (l.foldl step st) := by
  intro l
  induction l with
  | nil => intro st h; exact h
  | cons a t ih =>
    intro st h
    rw [List.foldl_cons]
    exact ih (step st a) (hstep st a h)

/-- Every neighbor id collected by the placed-branch candidate scan
resolves through `findPiece`, hence is a real piece id. -/
theorem groupSnapScan_snd_sub (pieces : List PieceS) (nm : PMap)
    (grp : List ℕ) (thr : ℚ) :
    ∀ y ∈ (groupSnapScan pieces nm grp thr).2, y ∈ idsOf pieces := by
  rw [groupSnapScan]
  have hstep : ∀ (st : Option BestSnap × List ℕ) (gId : ℕ),
      (∀ y ∈ st.2, y ∈ idsOf pieces) →
      ∀ y ∈ ((match findPiece pieces gId, objGet nm gId with
        | some gp, some gPl =>
          gp.nbrs.foldl (fun st2 nOpt =>
            match nOpt with
            | none => st2
            | some nId =>
              if nId ∈ grp then st2
              else
                match objGet nm nId, findPiece pieces nId with
                | some nPl, some np =>
                  if distLtB gPl.pos (expectedPos nPl gp np) thr then
                    (match st2.1 with
                      | none => some ⟨expectedPos nPl gp np, gId, gPl.pos, nId,
                          distSq gPl.pos (expectedPos nPl gp np)⟩
                      | some b =>
                        if distSq gPl.pos (expectedPos nPl gp np) < b.dsq then
                          some ⟨expectedPos nPl gp np, gId, gPl.pos, nId,
                            distSq gPl.pos (expectedPos nPl gp np)⟩
                        else some b,
                     addUniq st2.2 nId)
                  else st2
                | _, _ => st2) st
        | _, _ => st : Option BestSnap × List ℕ)).2, y ∈ idsOf pieces := by
    intro st gId hst y hy
    split at hy
    · next gp gPl _ _ =>
      have hinner : ∀ (st2 : Option BestSnap × List ℕ) (nOpt : Option ℕ),
          (∀ y ∈ st2.2, y ∈ idsOf pieces) →
          ∀ y ∈ ((match nOpt with
            | none => st2
            | some nId =>
              if nId ∈ grp then st2
              else
                match objGet nm nId, findPiece pieces nId with
                | some nPl, some np =>
                  if distLtB gPl.pos (expectedPos nPl gp np) thr then
                    (match st2.1 with
                      | none => some ⟨expectedPos nPl gp np, gId, gPl.pos, nId,
                          distSq gPl.pos (expectedPos nPl gp np)⟩
                      | some b =>
                        if distSq gPl.pos (expectedPos nPl gp np) < b.dsq then
                          some ⟨expectedPos nPl gp np, gId, gPl.pos, nId,
                            distSq gPl.pos (expectedPos nPl gp np)⟩
                        else some b,
                     addUniq st2.2 nId)
                  else st2
                | _, _ => st2 : Option BestSnap × List ℕ)).2,
            y ∈ idsOf pieces := by
        intro st2 nOpt hst2 y2 hy2
        split at hy2
        · exact hst2 y2 hy2
        · split at hy2
          · exact hst2 y2 hy2
          · split at hy2
            · next nPl np _ hnp =>
              split at hy2
              · have hy3 : y2 ∈ addUniq st2.2 _ := hy2
                rw [mem_addUniq] at hy3
                rcases hy3 with h | h
                · exact hst2 y2 h
                · subst h
                  exact (findPiece_isSome_iff pieces _).mp (by rw [hnp]; rfl)
              · exact hst2 y2 hy2
            · exact hst2 y2 hy2
      exact foldl_invariant _ (fun st2 => ∀ y ∈ st2.2, y ∈ idsOf pieces)
        hinner gp.nbrs st hst y hy
    · exact hst y hy
  exact foldl_invariant _ (fun st => ∀ y ∈ st.2, y ∈ idsOf pieces) hstep grp
    (none, []) (fun y hy => absurd hy (List.not_mem_nil y))

/-- Membership in the `expandedNeighbors` walk comes from a blocked BFS
from one of the candidate neighbors. -/
theorem mem_expandedNbrs (nm : PMap) (grp allN : List ℕ) (y : ℕ)
    (hy : y ∈ expandedNbrs nm grp allN) :
    ∃ nId ∈ allN, y ∈ bfsAux nm grp (bfsFuel nm nId) [nId] [] := by
  rw [expandedNbrs] at hy
  have hstep : ∀ (acc : List ℕ) (a y : ℕ),
      y ∈ addAllUniq acc (bfsAux nm grp (bfsFuel nm a) [a] []) →
      y ∈ acc ∨ y ∈ bfsAux nm grp (bfsFuel nm a) [a] [] := by
    intro acc a y h
    rw [mem_addAllUniq] at h
    exact h
  rcases mem_foldl_of_step _ _ hstep allN [] y hy with h | h
  · cases h
  · exact h

/-- The merged id set of the placed-branch snap consists of real piece ids
when the dragged group and the candidate neighbors do. -/
theorem applyAllC_sub (pieces : List PieceS) (nm : PMap) (grp allN : List ℕ)
    (hwf : PlacedWF pieces nm)
    (hgrp : ∀ y ∈ grp, y ∈ idsOf pieces)
    (hallN : ∀ y ∈ allN, y ∈ idsOf pieces) :
    ∀ y ∈ applyAllC nm grp allN, y ∈ idsOf pieces := by
  intro y hy
  rw [applyAllC, mem_addAllUniq, mem_addAllUniq] at hy
  rcases hy with (h | h) | h
  · cases h
  · exact hgrp y h
  · obtain ⟨nId, hn, hb⟩ := mem_expandedNbrs nm grp allN y h
    exact bfsAux_single_sub pieces nm grp (bfsFuel nm nId) nId
      (fun e he => (hwf e he).2) (hallN nId hn) y hb

/-- The placed branch of the triangle drop preserves map well-formedness. -/
theorem placedWF_placedDropT (pieces : List PieceS) (placed : PMap)
    (thr : ℚ) (pid : ℕ) (d : Pt) (hwf : PlacedWF pieces placed)
    (hpid : pid ∈ idsOf pieces) :
    PlacedWF pieces (placedDropT pieces placed thr pid d) := by
  have hgrp : ∀ y ∈ getConnectedGroup placed pid, y ∈ idsOf pieces :=
    getConnectedGroup_sub pieces placed pid (fun e he => (hwf e he).2) hpid
  have hnmwf : PlacedWF pieces
      (moveGroupT placed (getConnectedGroup placed pid) d) :=
    placedWF_moveGroupT pieces placed _ d hwf
  simp only [placedDropT]
  split
  · next bs allN heq =>
    split
    · refine placedWF_applyGroupSnapT pieces _ _ bs allN hnmwf ?_
      refine applyAllC_sub pieces _ _ allN hnmwf hgrp ?_
      have h := groupSnapScan_snd_sub pieces
        (moveGroupT placed (getConnectedGroup placed pid) d)
        (getConnectedGroup placed pid) thr
      rw [heq] at h
      exact h
    · exact hnmwf
  · exact hnmwf

/-- The initial state satisfies the invariant. -/
theorem invT_init (pieces : List PieceS) (ord : List ℕ)
    (hperm : ord.Perm (idsOf pieces)) :
    InvT pieces ⟨ord, [], none⟩ := by
  refine ⟨?_, ?_, ?_, ?_⟩
  · intro i _
    rfl
  · intro e he
    exact absurd he (List.not_mem_nil e)
  · intro i hi
    exact hperm.mem_iff.mp hi
  · intro i hi
    exact Or.inl (hperm.mem_iff.mpr hi)

/-- `handleDragStart` preserves the invariant. -/
theorem invT_dragStart (pieces : List PieceS) (s : TriState) (i : ℕ)
    (hinv : InvT pieces s) (hdrag : s.drag = none) :
    InvT pieces (handleDragStartT s i) := by
  obtain ⟨h1, h2, h3, h4⟩ := hinv
  rw [hdrag] at h4
  have hcov : CoverAll pieces s := h4
  rw [handleDragStartT]
  split
  · next hpool =>
    refine ⟨?_, h2, ?_, ?_, ?_, ?_, ?_⟩
    · intro j hj
      exact h1 j (List.mem_of_mem_filter hj)
    · intro j hj
      exact h3 j (List.mem_of_mem_filter hj)
    · exact h3 i hpool
    · intro hmem
      have hp := List.of_mem_filter (p := fun p => decide (¬ p = i)) hmem
      simp at hp
    · exact h1 i hpool
    · intro j hj
      rcases hcov j hj with hp | hpl
      · by_cases hji : j = i
        · exact Or.inr (Or.inr hji)
        · exact Or.inl (List.mem_filter.mpr ⟨hp, by simp [hji]⟩)
      · exact Or.inr (Or.inl hpl)
  · split
    · next hsome =>
      obtain ⟨v, hv⟩ := Option.isSome_iff_exists.mp hsome
      exact ⟨h1, h2, h3, (h2 (i, v) (objGet_some_mem s.placed i v hv)).1, hcov⟩
    · refine ⟨h1, h2, h3, ?_⟩
      rw [hdrag]
      exact hcov

/-- `handleReturnToPool` preserves the invariant. -/
theorem invT_returnToPool (pieces : List PieceS) (s : TriState) (i : ℕ)
    (hinv : InvT pieces s) (hdrag : s.drag = none)
    (hplaced : (objGet s.placed i).isSome = true) :
    InvT pieces (handleReturnToPoolT s i) := by
  obtain ⟨h1, h2, h3, h4⟩ := hinv
  rw [hdrag] at h4
  have hcov : CoverAll pieces s := h4
  obtain ⟨v, hv⟩ := Option.isSome_iff_exists.mp hplaced
  have hiids : i ∈ idsOf pieces :=
    (h2 (i, v) (objGet_some_mem s.placed i v hv)).1
  have hgrp : ∀ y ∈ getConnectedGroup s.placed i, y ∈ idsOf pieces :=
    getConnectedGroup_sub pieces s.placed i (fun e he => (h2 e he).2) hiids
  have c1 : ∀ j ∈ s.pool ++ getConnectedGroup s.placed i,
      objGet ((getConnectedGroup s.placed i).foldl
        (fun m j => objDel m j) s.placed) j = none := by
    intro j hj
    rw [objGet_foldl_objDel]
    by_cases hjg : j ∈ getConnectedGroup s.placed i
    · rw [if_pos hjg]
    · rw [if_neg hjg]
      rcases List.mem_append.mp hj with h | h
      · exact h1 j h
      · exact absurd h hjg
  have c2 : PlacedWF pieces ((getConnectedGroup s.placed i).foldl
      (fun m j => objDel m j) s.placed) := by
    intro e he
    exact h2 e (mem_foldl_objDel _ _ e he)
  have c3 : ∀ j ∈ s.pool ++ getConnectedGroup s.placed i,
      j ∈ idsOf pieces := by
    intro j hj
    rcases List.mem_append.mp hj with h | h
    · exact h3 j h
    · exact hgrp j h
  have c4 : ∀ j ∈ idsOf pieces, j ∈ s.pool ++ getConnectedGroup s.placed i ∨
      (objGet ((getConnectedGroup s.placed i).foldl
        (fun m j => objDel m j) s.placed) j).isSome = true := by
    intro j hj
    by_cases hjg : j ∈ getConnectedGroup s.placed i
    · exact Or.inl (List.mem_append_right _ hjg)
    · rcases hcov j hj with hp | hpl
      · exact Or.inl (List.mem_append_left _ hp)
      · refine Or.inr ?_
        rw [objGet_foldl_objDel, if_neg hjg]
        exact hpl
  rw [handleReturnToPoolT]
  refine ⟨c1, c2, c3, ?_⟩
  rw [hdrag]
  exact c4

/-- `handleDragEnd` preserves the invariant. -/
theorem invT_dragEnd (pieces : List PieceS) (thr : ℚ) (s : TriState)
    (overCanvas : Bool) (dropPos delta : Pt) (hinv : InvT pieces s) :
    InvT pieces (handleDragEndT pieces thr s overCanvas dropPos delta) := by
  obtain ⟨h1, h2, h3, h4⟩ := hinv
  rw [handleDragEndT]
  split
  · exact ⟨h1, h2, h3, h4⟩
  · next pid heq =>
    rw [heq] at h4
    have h4' : pid ∈ idsOf pieces ∧ pid ∉ s.pool ∧
        objGet s.placed pid = none ∧
        ∀ j ∈ idsOf pieces, j ∈ s.pool ∨ (objGet s.placed j).isSome = true ∨
          j = pid := h4
    obtain ⟨hdids, hdpool, hdnone, hcov3⟩ := h4'
    split
    · next hnone =>
      exact absurd ((findPiece_isSome_iff pieces pid).mpr hdids)
        (by rw [Option.isNone_iff_eq_none] at hnone; rw [hnone]; simp)
    · split
      · refine ⟨?_, ?_, h3, ?_⟩
        · intro j hj
          have hjne : ¬ j = pid := fun h => hdpool (h ▸ hj)
          exact objGet_poolDropT_none pieces s.placed thr pid dropPos j hjne
            (h1 j hj)
        · exact placedWF_poolDropT pieces s.placed thr pid dropPos h2 hdids
        · intro j hj
          rcases hcov3 j hj with hp | hpl | hjd
          · exact Or.inl hp
          · exact Or.inr
              (objGet_poolDropT_isSome_of pieces s.placed thr pid dropPos j hpl)
          · subst hjd
            exact Or.inr
              (objGet_poolDropT_self_isSome pieces s.placed thr j dropPos)
      · refine ⟨?_, h2, ?_, ?_⟩
        · intro j hj
          rcases List.mem_append.mp hj with h | h
          · exact h1 j h
          · rw [List.mem_singleton] at h
            subst h
            exact hdnone
        · intro j hj
          rcases List.mem_append.mp hj with h | h
          · exact h3 j h
          · rw [List.mem_singleton] at h
            subst h
            exact hdids
        · intro j hj
          rcases hcov3 j hj with hp | hpl | hjd
          · exact Or.inl (List.mem_append_left _ hp)
          · exact Or.inr hpl
          · subst hjd
            exact Or.inl (List.mem_append_right _ (List.mem_singleton_self _))
  · next pid heq =>
    rw [heq] at h4
    have h4' : pid ∈ idsOf pieces ∧ CoverAll pieces s := h4
    obtain ⟨hdids, hcov⟩ := h4'
    split
    · next hnone =>
      exact absurd ((findPiece_isSome_iff pieces pid).mpr hdids)
        (by rw [Option.isNone_iff_eq_none] at hnone; rw [hnone]; simp)
    · refine ⟨?_, ?_, h3, ?_⟩
      · intro j hj
        have hjn := h1 j hj
        have hiso := objGet_placedDropT_isSome pieces s.placed thr pid delta j
        rw [hjn] at hiso
        cases hv : objGet (placedDropT pieces s.placed thr pid delta) j with
        | none => rfl
        | some w =>
          rw [hv] at hiso
          simp at hiso
      · exact placedWF_placedDropT pieces s.placed thr pid delta h2 hdids
      · intro j hj
        rcases hcov j hj with hp | hpl
        · exact Or.inl hp
        · refine Or.inr ?_
          rw [objGet_placedDropT_isSome]
          exact hpl

/-- C5: in every reachable observable state of the triangle variant the
pool and the placed map are disjoint and every piece id is in one of them —
except during a drag session that started from the pool, whose dragged
piece is removed from the pool without being placed and is therefore
temporarily in neither collection. -/
theorem pool_placed_partition (pieces : List PieceS) (thr : ℚ) (s : TriState)
    (hs : ReachT pieces thr s) : InvT pieces s := by
  induction hs with
  | init ord hperm => exact invT_init pieces ord hperm
  | dragStart s i _ hdrag ih => exact invT_dragStart pieces s i ih hdrag
  | dragEnd s overCanvas dropPos delta _ ih =>
      exact invT_dragEnd pieces thr s overCanvas dropPos delta ih
  | returnToPool s i _ hdrag hplaced ih =>
      exact invT_returnToPool pieces s i ih hdrag hplaced

/-- C5 counterexample: after `handleDragStart` on pool piece 0, the
reachable state has piece 0 in neither the pool nor the placed map — the
claimed "never neither" is false mid-drag. -/
theorem piece_in_neither_collection_counterexample :
    ReachT piecesW5 20 ⟨[1], [], some (0, DragSrc.fromPool)⟩ ∧
    0 ∈ idsOf piecesW5 ∧ ¬ 0 ∈ ([1] : List ℕ) ∧
    objGet ([] : PMap) 0 = none := by
  refine ⟨?_, by decide, by decide, rfl⟩
  have h : handleDragStartT ⟨[0, 1], [], none⟩ 0 =
      ⟨[1], [], some (0, DragSrc.fromPool)⟩ := by decide
  rw [← h]
  exact ReachT.dragStart ⟨[0, 1], [], none⟩ 0 (ReachT.init [0, 1] (by decide))
    rfl

/-- C5 witness: the invariant instantiated at a concrete reachable
mid-drag state. -/
theorem pool_placed_partition_witness :
    InvT piecesW5 (handleDragStartT ⟨[0, 1], [], none⟩ 0) :=
  pool_placed_partition piecesW5 20 (handleDragStartT ⟨[0, 1], [], none⟩ 0)
    (ReachT.dragStart ⟨[0, 1], [], none⟩ 0 (ReachT.init [0, 1] (by decide))
      rfl)

/-- A left fold grows monotonically when every step keeps the accumulator's
elements. -/
theorem foldl_grows {α β : Type} (step : List β → α → List β)
    (hmono : ∀ acc a c, c ∈ acc → c ∈ step acc a) :
    ∀ (l : List α) (acc : List β) (c : β), c ∈ acc → c ∈ l.foldl step acc := by
  intro l
  induction l with
  | nil => intro acc c hc; exact hc
  | cons a t ih =>
    intro acc c hc
    rw [List.foldl_cons]
    exact ih _ c (hmono acc a c hc)

/-- An element contributed by some scanned entry survives to the end of a
monotone left fold. -/
theorem foldl_mem_of_elem {α β : Type} (step : List β → α → List β)
    (hmono : ∀ acc a c, c ∈ acc → c ∈ step acc a)
    (a : α) (c : β) (hin : ∀ acc, c ∈ step acc a) :
    ∀ (l : List α) (acc : List β), a ∈ l → c ∈ l.foldl step acc := by
  intro l
  induction l with
  | nil => intro acc h; cases h
  | cons b t ih =>
    intro acc hb
    rw [List.foldl_cons]
    rcases List.mem_cons.mp hb with rfl | hb'
    · exact foldl_grows step hmono t _ c (hin acc)
    · exact ih _ hb'

/-- Exact characterization of the snap candidates: a candidate record is
collected iff some `neighbors` entry names a placed, resolvable neighbor
whose expected position is within the threshold. -/
theorem mem_snapCandidates_iff (pieces : List PieceS) (placed : PMap)
    (thr : ℚ) (pc : PieceS) (pos : Pt) (c : Cand) :
    c ∈ snapCandidates pieces placed thr pc pos ↔
      ∃ nId npl np, some nId ∈ pc.nbrs ∧ objGet placed nId = some npl ∧
        findPiece pieces nId = some np ∧
        distLtB pos (expectedPos npl pc np) thr = true ∧
        c = ⟨nId, expectedPos npl pc np, distSq pos (expectedPos npl pc np)⟩ := by
  constructor
  · intro hc
    rw [snapCandidates] at hc
    have h := mem_foldl_of_step _
      (fun a c => ∃ nId npl np, a = some nId ∧ objGet placed nId = some npl ∧
        findPiece pieces nId = some np ∧
        distLtB pos (expectedPos npl pc np) thr = true ∧
        c = ⟨nId, expectedPos npl pc np, distSq pos (expectedPos npl pc np)⟩)
      ?_ pc.nbrs [] c hc
    · rcases h with h | ⟨a, ha, nId, npl, np, haeq, h1, h2, h3, h4⟩
      · cases h
      · subst haeq
        exact ⟨nId, npl, np, ha, h1, h2, h3, h4⟩
    · intro acc a c' hc'
      split at hc'
      · exact Or.inl hc'
      · next nId =>
        split at hc'
        · exact Or.inl hc'
        · next npl hnpl =>
          split at hc'
          · exact Or.inl hc'
          · next np hnp =>
            split at hc'
            · next hd =>
              rcases List.mem_append.mp hc' with h | h
              · exact Or.inl h
              · rw [List.mem_singleton] at h
                exact Or.inr ⟨nId, npl, np, rfl, hnpl, hnp, hd, h⟩
            · exact Or.inl hc'
  · rintro ⟨nId, npl, np, hnbr, hnpl, hnp, hd, rfl⟩
    rw [snapCandidates]
    have hmono : ∀ (acc : List Cand) (a : Option ℕ) (c : Cand), c ∈ acc →
        c ∈ (match a with
          | none => acc
          | some nId =>
            match objGet placed nId with
            | none => acc
            | some npl =>
              match findPiece pieces nId with
              | none => acc
              | some np =>
                if distLtB pos (expectedPos npl pc np) thr then
                  acc ++ [⟨nId, expectedPos npl pc np,
                    distSq pos (expectedPos npl pc np)⟩]
                else acc : List Cand) := by
      intro acc a c hc
      split
      · exact hc
      · split
        · exact hc
        · split
          · exact hc
          · split
            · exact List.mem_append_left _ hc
            · exact hc
    have hin : ∀ acc : List Cand,
        (⟨nId, expectedPos npl pc np,
          distSq pos (expectedPos npl pc np)⟩ : Cand) ∈
          (match some nId with
          | none => acc
          | some nId =>
            match objGet placed nId with
            | none => acc
            | some npl =>
              match findPiece pieces nId with
              | none => acc
              | some np =>
                if distLtB pos (expectedPos npl pc np) thr then
                  acc ++ [⟨nId, expectedPos npl pc np,
                    distSq pos (expectedPos npl pc np)⟩]
                else acc : List Cand) := by
      intro acc
      simp [hnpl, hnp, hd]
    exact foldl_mem_of_elem _ hmono (some nId) _ hin pc.nbrs [] hnbr

/-- The head of the sorted candidate list is a candidate of minimal
(squared) distance. -/
theorem sortCands_head_min (l : List Cand) (best : Cand) (rest : List Cand)
    (h : sortCands l = best :: rest) :
    best ∈ l ∧ ∀ c ∈ l, best.dsq ≤ c.dsq := by
  have hperm : (sortCands l).Perm l := by
    rw [sortCands]
    exact List.perm_insertionSort _ l
  constructor
  · refine hperm.mem_iff.mp ?_
    rw [h]
    exact List.mem_cons_self best rest
  · intro c hc
    have hc' : c ∈ best :: rest := by
      rw [← h]
      exact hperm.mem_iff.mpr hc
    rcases List.mem_cons.mp hc' with rfl | hcr
    · exact le_refl _
    · have hsorted : List.Sorted (fun a b => a.dsq ≤ b.dsq) (best :: rest) := by
        rw [← h, sortCands]
        exact List.sorted_insertionSort _ l
      exact List.rel_of_sorted_cons hsorted c hcr

/-- When the candidate list is nonempty, `checkAndSnapToNeighbors` reports
a snap at the closest candidate's expected position. -/
theorem checkAndSnap_of_sorted (pieces : List PieceS) (placed : PMap)
    (thr : ℚ) (pid : ℕ) (pos : Pt) (pc : PieceS) (best : Cand)
    (rest : List Cand) (hf : findPiece pieces pid = some pc)
    (hs : sortCands (snapCandidates pieces placed thr pc pos) = best :: rest) :
    checkAndSnapToNeighbors pieces placed thr pid pos =
      ⟨true, best.snapPos,
        (snapCandidates pieces placed thr pc pos).foldl (fun acc c =>
          addAllUniq (addUniq acc c.nId) (getConnectedGroup placed c.nId))
          []⟩ := by
  rw [checkAndSnapToNeighbors, hf]
  simp only [hs]

/-- When a candidate exists, the pool drop stores the dragged piece exactly
at the closest candidate's expected position, locked. -/
theorem poolDropT_lands_at_best (pieces : List PieceS) (placed : PMap)
    (thr : ℚ) (pid : ℕ) (dropPos : Pt) (pc : PieceS) (best : Cand)
    (rest : List Cand) (hf : findPiece pieces pid = some pc)
    (hs : sortCands (snapCandidates pieces placed thr pc dropPos) =
      best :: rest) :
    ∃ g, objGet (poolDropT pieces placed thr pid dropPos) pid =
      some ⟨best.snapPos, true, g⟩ := by
  have hr := checkAndSnap_of_sorted pieces placed thr pid dropPos pc best rest
    hf hs
  have hbest : best ∈ snapCandidates pieces placed thr pc dropPos :=
    (sortCands_head_min _ best rest hs).1
  have hmono : ∀ (acc : List ℕ) (a : Cand) (c : ℕ), c ∈ acc →
      c ∈ addAllUniq (addUniq acc a.nId) (getConnectedGroup placed a.nId) := by
    intro acc a c hc
    rw [mem_addAllUniq, mem_addUniq]
    exact Or.inl (Or.inl hc)
  have hin : ∀ acc : List ℕ, best.nId ∈
      addAllUniq (addUniq acc best.nId) (getConnectedGroup placed best.nId) := by
    intro acc
    rw [mem_addAllUniq, mem_addUniq]
    exact Or.inl (Or.inr rfl)
  have hnn : best.nId ∈ (snapCandidates pieces placed thr pc dropPos).foldl
      (fun acc c => addAllUniq (addUniq acc c.nId)
        (getConnectedGroup placed c.nId)) [] :=
    foldl_mem_of_elem _ hmono best best.nId hin _ [] hbest
  simp only [poolDropT, hr]
  split
  · next hcond =>
    rw [if_pos trivial]
    exact ⟨_, objGet_mergeSnapT_self placed pid best.snapPos _⟩
  · next hcond =>
    exact absurd ⟨trivial, List.ne_nil_of_mem hnn⟩ hcond

/-- Lookup after the group-snap application: every merged member is locked
and every dragged-group member is shifted by the same rigid snap offset. -/
theorem applyGroupSnapT_lookup (nm : PMap) (grp : List ℕ) (bs : BestSnap)
    (allN : List ℕ) (i : ℕ) (v : Placed) (hi : i ∈ applyAllC nm grp allN)
    (hv : objGet nm i = some v) :
    objGet (applyGroupSnapT nm grp bs allN) i =
      some ⟨if i ∈ grp then
          Pt.add v.pos ⟨bs.snapPos.x - bs.groupPiecePos.x,
            bs.snapPos.y - bs.groupPiecePos.y⟩
        else v.pos, true,
        (applyAllC nm grp allN).filter (fun c => decide (¬ c = i))⟩ := by
  rw [applyGroupSnapT]
  refine objGet_writeEach_mem_some _ _ _ i _ hi ?_
  simp [hv]

/-- The snap offset moves the best group piece exactly onto its expected
position. -/
theorem snapOff_lands (v : Pt) (bs : BestSnap) (h : v = bs.groupPiecePos) :
    Pt.add v ⟨bs.snapPos.x - bs.groupPiecePos.x,
      bs.snapPos.y - bs.groupPiecePos.y⟩ = bs.snapPos := by
  subst h
  rw [Pt.add]
  have hx : bs.groupPiecePos.x + (bs.snapPos.x - bs.groupPiecePos.x)
      = bs.snapPos.x := by ring
  have hy : bs.groupPiecePos.y + (bs.snapPos.y - bs.groupPiecePos.y)
      = bs.snapPos.y := by ring
  rw [hx, hy]

/-- C1: for a single-piece drop, a neighbor entry yields a candidate
exactly when it is placed, resolvable and its expected position
`neighbor.position + (piece.correct - neighbor.correct)` is within the
threshold (with `distLtB` agreeing with the real Euclidean comparison);
the selected candidate has minimal distance among all candidates and the
dragged piece lands exactly at its expected position; for group drags,
every merged member of the group is shifted by one rigid snap offset that
puts the best group piece exactly at its expected position. -/
theorem snap_candidate_min_selection :
    (∀ (pieces : List PieceS) (placed : PMap) (thr : ℚ) (pc : PieceS)
      (pos : Pt) (c : Cand),
      c ∈ snapCandidates pieces placed thr pc pos ↔
        ∃ nId npl np, some nId ∈ pc.nbrs ∧ objGet placed nId = some npl ∧
          findPiece pieces nId = some np ∧
          distLtB pos (expectedPos npl pc np) thr = true ∧
          c = ⟨nId, expectedPos npl pc np,
            distSq pos (expectedPos npl pc np)⟩) ∧
    (∀ (l : List Cand) (best : Cand) (rest : List Cand),
      sortCands l = best :: rest →
        best ∈ l ∧ ∀ c ∈ l, best.dsq ≤ c.dsq) ∧
    (∀ (pieces : List PieceS) (placed : PMap) (thr : ℚ) (pid : ℕ)
      (dropPos : Pt) (pc : PieceS) (best : Cand) (rest : List Cand),
      findPiece pieces pid = some pc →
      sortCands (snapCandidates pieces placed thr pc dropPos) =
        best :: rest →
      ∃ g, objGet (poolDropT pieces placed thr pid dropPos) pid =
        some ⟨best.snapPos, true, g⟩) ∧
    (∀ (nm : PMap) (grp : List ℕ) (bs : BestSnap) (allN : List ℕ) (i : ℕ)
      (v : Placed), i ∈ applyAllC nm grp allN → objGet nm i = some v →
      objGet (applyGroupSnapT nm grp bs allN) i =
        some ⟨if i ∈ grp then
            Pt.add v.pos ⟨bs.snapPos.x - bs.groupPiecePos.x,
              bs.snapPos.y - bs.groupPiecePos.y⟩
          else v.pos, true,
          (applyAllC nm grp allN).filter (fun c => decide (¬ c = i))⟩) ∧
    (∀ (v : Pt) (bs : BestSnap), v = bs.groupPiecePos →
      Pt.add v ⟨bs.snapPos.x - bs.groupPiecePos.x,
        bs.snapPos.y - bs.groupPiecePos.y⟩ = bs.snapPos) ∧
    (∀ (p q : Pt) (t : ℚ), distLtB p q t = true ↔
      Real.sqrt ((distSq p q : ℚ) : ℝ) < (t : ℝ)) :=
  ⟨mem_snapCandidates_iff, sortCands_head_min, poolDropT_lands_at_best,
    applyGroupSnapT_lookup, snapOff_lands, distLtB_iff_sqrt⟩

/-- C1 counterexample: in a group drag, a placed neighbor that belongs to
the dragged group is never a snap candidate even when its expected
position is strictly within the threshold — the scan finds nothing and no
snap is applied. -/
theorem group_internal_neighbor_not_candidate_counterexample :
    getConnectedGroup placedC1 0 = [0, 1] ∧
    objGet nmC1 0 = some ⟨⟨51, 50⟩, false, [1]⟩ ∧
    objGet nmC1 1 = some ⟨⟨61, 50⟩, false, [0]⟩ ∧
    findPiece piecesC1 0 = some ⟨0, ⟨0, 0⟩, [some 1]⟩ ∧
    distLtB ⟨51, 50⟩ (expectedPos ⟨⟨61, 50⟩, false, [0]⟩ ⟨0, ⟨0, 0⟩, [some 1]⟩
      ⟨1, ⟨10, 0⟩, [some 0]⟩) 20 = true ∧
    groupSnapScan piecesC1 nmC1 (getConnectedGroup placedC1 0) 20 =
      (none, []) ∧
    placedDropT piecesC1 placedC1 20 0 ⟨1, 0⟩ = nmC1 := by
  decide

/-- C1 witness: a concrete pool drop lands the dragged piece exactly at
the closest candidate's expected position. -/
theorem snap_candidate_min_selection_witness :
    ∃ g, objGet (poolDropT piecesC1 [(0, ⟨⟨100, 100⟩, false, []⟩)] 20 1
      ⟨111, 101⟩) 1 = some ⟨⟨110, 100⟩, true, g⟩ :=
  snap_candidate_min_selection.2.2.1 piecesC1
    [(0, ⟨⟨100, 100⟩, false, []⟩)] 20 1 ⟨111, 101⟩ ⟨1, ⟨10, 0⟩, [some 0]⟩
    ⟨0, ⟨110, 100⟩, 2⟩ [] (by decide) (by decide)
